import Mathlib

/-! Point Cloud Map (`pcm.h`): a shallow embedding and its verified properties.

The header `src/pcm.h` is embedded as pure functions:

* `std::string` is a list of characters (`pcm.string`), one `Char` per C++ `char`;
  `std::string::npos` is `none`;
* every `while` loop is a recursion on a counter (`gas`), returning `none` when the
  counter runs out before the loop condition fails, so that termination is a theorem
  and not an assumption;
* methods that mutate `*this` return the new state next to their result;
* `std::map` is its sequence of entries in iteration order, `std::vector<Point3D*>` the
  list of the points pointed to, a null pointer result is `none`;
* the C library's `float` functions used by the header (`std::to_string(float)`, `atof`,
  `==` on `float`) are not part of the header and are a parameter (`Real32Ops`).

Sizes stay far below `2^64`, so the `uint64` index arithmetic of the header never wraps
and is embedded on `Nat`.
-/

namespace pcm

/-! ## Strings -/

/-- The type `std::string`. -/
abbrev string := List Char

/-- The terminator of a C string. -/
def NUL : Char := Char.ofNat 0

/-- Method `std::string::c_str` as seen by the C functions that read it: the characters
before the first NUL. -/
def c_str (s : string) : string := s.takeWhile (fun c => c != NUL)

/-- Function `strcmp` on two C strings (sign of the comparison). -/
def strcmp (a b : string) : Int :=
  if a = b then 0 else if a < b then -1 else 1

/-- Search of `t` in the text `u`, which starts at index `i` of the whole string. -/
def findFrom (t : string) : string → Nat → Option Nat
  | [], i => if t.isEmpty then some i else none
  | c :: rest, i => if t.isPrefixOf (c :: rest) then some i else findFrom t rest (i + 1)

/-- Method `std::string::find(t, pos)`: the first index `i ≥ pos` at which `t` occurs in `s`. -/
def find (s t : string) (pos : Nat) : Option Nat :=
  if s.length < pos then none else findFrom t (s.drop pos) pos

/-- Search of a character of `cs` in the text `u`, which starts at index `i`. -/
def find_first_of_from (cs : string) : string → Nat → Option Nat
  | [], _ => none
  | c :: rest, i => if cs.contains c then some i else find_first_of_from cs rest (i + 1)

/-- Method `std::string::find_first_of(cs, pos)`. -/
def find_first_of (s cs : string) (pos : Nat) : Option Nat :=
  find_first_of_from cs (s.drop pos) pos

/-- Method `std::string::substr(pos, n)`. -/
def substr (s : string) (pos n : Nat) : string := (s.drop pos).take n

/-- Method `std::string::substr(pos)`. -/
def substr_to_end (s : string) (pos : Nat) : string := s.drop pos

/-- Method `std::string::replace(pos, n, r)`. -/
def replace (s : string) (pos n : Nat) (r : string) : string :=
  s.take pos ++ r ++ s.drop (pos + n)

/-! ## String utility functions -/

/-- The `while (pos < s.length())` loop of `split_string`; the counter bounds the number of
evaluations of the loop condition. -/
def split_string_loop (s delimiter : string) : Nat → Nat → List string → Option (List string)
  | 0, _, _ => none
  | gas + 1, pos, strings =>
    if pos < s.length then
      match find s delimiter pos with
      | none => some (strings ++ [substr_to_end s pos])
      | some next =>
        split_string_loop s delimiter gas (next + delimiter.length)
          (strings ++ [substr s pos (next - pos)])
    else some strings

/-- Function `split_string(s, delimiter)`. -/
def split_string (gas : Nat) (s delimiter : string) : Option (List string) :=
  split_string_loop s delimiter gas 0 []

/-- The two quote characters of `find_first_of("\"'", quotePos)`. -/
def quotes : string := ['"', Char.ofNat 39]

/-- The inner `while (quotePos != npos && quotePos < pos)` loop of `replaceAll`, on the state
`(inQuotes, quotePos)`. -/
def replaceAll_quotes (tmp : string) (pos : Nat) : Nat → Bool → Option Nat → Option (Bool × Option Nat)
  | 0, _, _ => none
  | gas + 1, inQuotes, quotePos =>
    match quotePos with
    | none => some (inQuotes, none)
    | some q =>
      if q < pos then
        match find_first_of tmp quotes q with
        | none => replaceAll_quotes tmp pos gas inQuotes none
        | some q1 =>
          if q1 < pos then replaceAll_quotes tmp pos gas (!inQuotes) (some (q1 + 1))
          else replaceAll_quotes tmp pos gas inQuotes (some q1)
      else some (inQuotes, some q)

/-- The outer `while (pos != tmp.npos)` loop of `replaceAll`, on the state
`(tmp, inQuotes, quotePos, pos)`; `gas` bounds the inner loop, the counter the outer one. -/
def replaceAll_loop (gas : Nat) (_find _replace : string) :
    Nat → string → Bool → Option Nat → Option Nat → Option string
  | 0, _, _, _, _ => none
  | n + 1, tmp, inQuotes, quotePos, pos =>
    match pos with
    | none => some tmp
    | some p =>
      match replaceAll_quotes tmp p gas inQuotes quotePos with
      | none => none
      | some (inQuotes1, quotePos1) =>
        if !inQuotes1 then
          let tmp1 := replace tmp p _find.length _replace
          replaceAll_loop gas _find _replace n tmp1 inQuotes1 quotePos1
            (find tmp1 _find (p + _replace.length))
        else
          replaceAll_loop gas _find _replace n tmp inQuotes1 quotePos1
            (find tmp _find (p + _find.length))

/-- Function `replaceAll(s, _find, _replace, offset, respectQuotes)`. The body of the source
never reads `respectQuotes`. A negative `int offset` converts to a position past the end,
where `find` reports `npos`. -/
def replaceAll (gas : Nat) (s _find _replace : string) (offset : Int := 0)
    (respectQuotes : Bool := true) : Option string :=
  let _ := respectQuotes
  replaceAll_loop gas _find _replace gas s false (some 0)
    (if offset < 0 then none else find s _find offset.toNat)

/-- The `for` loop of `split_lines`, which rewrites every line in place. -/
def split_lines_strip (gas : Nat) : List string → Option (List string)
  | [] => some []
  | line :: rest =>
    match replaceAll gas line ['\n'] [] with
    | none => none
    | some line1 =>
      match split_lines_strip gas rest with
      | none => none
      | some rest1 => some (line1 :: rest1)

/-- Function `split_lines(data)`. -/
def split_lines (gas : Nat) (data : string) : Option (List string) :=
  match replaceAll gas data ['\r', '\n'] ['\n'] with
  | none => none
  | some data1 =>
    match split_string gas data1 ['\n'] with
    | none => none
    | some lines => split_lines_strip gas lines

/-! ## Mathematical structures -/

/-- The binary32 operations that the header takes from the C and C++ libraries, over the
type `R` of `real32` values: the literal `0.0f`, `operator==` on `float`,
`std::to_string(float)`, and `atof` of a C string narrowed to `real32`. -/
structure Real32Ops (R : Type) where
  zero : R
  eq : R → R → Bool
  to_string : R → string
  atof : string → R

/-- The struct `Vector3f`; `value0`, `value1`, `value2` are `value[0..2]`. -/
structure Vector3f (R : Type) where
  value0 : R
  value1 : R
  value2 : R
deriving DecidableEq

/-- Method `Vector3f::operator==`. -/
def Vector3f.eq {R : Type} (F : Real32Ops R) (A B : Vector3f R) : Bool :=
  F.eq A.value0 B.value0 && F.eq A.value1 B.value1 && F.eq A.value2 B.value2

/-- Method `Vector3f::zero` (and the default constructor). -/
def Vector3f.zero {R : Type} (F : Real32Ops R) : Vector3f R :=
  ⟨F.zero, F.zero, F.zero⟩

/-- Method `Vector3f::toString`. -/
def Vector3f.toString {R : Type} (F : Real32Ops R) (v : Vector3f R) : string :=
  F.to_string v.value0 ++ [' '] ++ F.to_string v.value1 ++ [' '] ++ F.to_string v.value2

/-! ## Reference structures -/

/-- The struct `ReferenceId`. -/
structure ReferenceId where
  value : string
deriving DecidableEq

/-- Method `ReferenceId::operator==`: `strcmp` of the two C strings is zero. -/
def ReferenceId.eq (A B : ReferenceId) : Bool :=
  strcmp (c_str A.value) (c_str B.value) == 0

/-- Method `ReferenceId::operator<`: comparison of the two `std::string` values. -/
def ReferenceId.lt (A B : ReferenceId) : Bool :=
  decide (A.value < B.value)

/-- Method `ReferenceId::toString`. -/
def ReferenceId.toString (A : ReferenceId) : string := A.value

/-- The struct `Reference`. -/
structure Reference where
  type : string
  value : string
deriving DecidableEq

/-- Method `Reference::toString`. -/
def Reference.toString (r : Reference) : string :=
  r.type ++ [' '] ++ r.value

/-! ## Point structures -/

/-- The struct `Point3D`. -/
structure Point3D (R : Type) where
  reference : ReferenceId
  position : Vector3f R
deriving DecidableEq

/-- Method `Point3D::toString`. -/
def Point3D.toString {R : Type} (F : Real32Ops R) (p : Point3D R) : string :=
  "point ".toList ++ p.reference.toString ++ [' '] ++ p.position.toString F

/-! ## Table structures -/

/-- The struct `ReferenceTable`: the entries of `std::map<ReferenceId, Reference> values` in
iteration order. -/
structure ReferenceTable where
  values : List (ReferenceId × Reference)
deriving DecidableEq

/-- The constructor of `ReferenceTable`. -/
def ReferenceTable.empty : ReferenceTable := ⟨[]⟩

/-- Method `std::map::find(id) != end()`: some key is neither below nor above `id`. -/
def map_contains (values : List (ReferenceId × Reference)) (id : ReferenceId) : Bool :=
  values.any (fun e => !(e.1.lt id) && !(id.lt e.1))

/-- The assignment `values[id] = ref` of `std::map`: the entry is stored at the place the
order of the keys gives it, an entry with an equivalent key has its value replaced. -/
def map_assign : List (ReferenceId × Reference) → ReferenceId → Reference →
    List (ReferenceId × Reference)
  | [], id, ref => [(id, ref)]
  | e :: rest, id, ref =>
    if id.lt e.1 then (id, ref) :: e :: rest
    else if e.1.lt id then e :: map_assign rest id ref
    else (e.1, ref) :: rest

/-- Method `ReferenceTable::in`. -/
def ReferenceTable.in (t : ReferenceTable) (id : ReferenceId) : Bool :=
  map_contains t.values id

/-- Method `ReferenceTable::getReferenceList`. -/
def ReferenceTable.getReferenceList (t : ReferenceTable) : List (ReferenceId × Reference) :=
  t.values

/-- Method `ReferenceTable::insert`: the result and the table afterwards. -/
def ReferenceTable.insert (t : ReferenceTable) (id : ReferenceId) (ref : Reference) :
    Bool × ReferenceTable :=
  if !(t.in id) then (true, ⟨map_assign t.values id ref⟩)
  else (false, t)

/-- The body of the loop of `ReferenceTable::toString`. -/
def ReferenceTable.toString_entry (e : ReferenceId × Reference) : string :=
  "ref ".toList ++ e.1.toString ++ [' '] ++ e.2.toString ++ ['\n']

/-- Method `ReferenceTable::toString`. -/
def ReferenceTable.toString (t : ReferenceTable) : string :=
  t.values.foldl (fun str e => str ++ ReferenceTable.toString_entry e) ['\n'] ++ ['\n']

/-- The struct `PointTable`: the points that the entries of `points` point to, in order. -/
structure PointTable (R : Type) where
  points : List (Point3D R)
deriving DecidableEq

/-- The constructor of `PointTable`. -/
def PointTable.empty {R : Type} : PointTable R := ⟨[]⟩

/-- Method `PointTable::insert`. -/
def PointTable.insert {R : Type} (t : PointTable R) (p : Point3D R) : PointTable R :=
  ⟨t.points ++ [p]⟩

/-- The `for` loop of `PointTable::find` on the points from index `i` on, and the final
`return -1`. -/
def PointTable.find_loop {R : Type} (F : Real32Ops R) (position : Vector3f R) :
    List (Point3D R) → Int → Int
  | [], _ => -1
  | p :: rest, i =>
    if p.position.eq F position then i else PointTable.find_loop F position rest (i + 1)

/-- Method `PointTable::find`. -/
def PointTable.find {R : Type} (F : Real32Ops R) (t : PointTable R) (position : Vector3f R) :
    Int :=
  PointTable.find_loop F position t.points 0

/-- Method `PointTable::getPoint(const uint64_t&)`. -/
def PointTable.getPoint {R : Type} (t : PointTable R) (i : Nat) : Option (Point3D R) :=
  if h : i < t.points.length then some t.points[i] else none

/-- Method `PointTable::getPoint(const Vector3f&)`. -/
def PointTable.getPointAt {R : Type} (F : Real32Ops R) (t : PointTable R)
    (position : Vector3f R) : Option (Point3D R) :=
  let i := t.find F position
  if i > 0 then t.getPoint i.toNat else none

/-- Method `PointTable::toString`. -/
def PointTable.toString {R : Type} (F : Real32Ops R) (t : PointTable R) : string :=
  t.points.foldl (fun str point => str ++ (point.toString F ++ ['\n'])) ['\n'] ++ ['\n']

/-! ## The point cloud map -/

/-- The struct `PointCloudMap`. -/
structure PointCloudMap (R : Type) where
  references : ReferenceTable
  points : PointTable R
deriving DecidableEq

/-- A freshly constructed `PointCloudMap`. -/
def PointCloudMap.empty {R : Type} : PointCloudMap R := ⟨ReferenceTable.empty, PointTable.empty⟩

/-- Method `PointCloudMap::addReference(const ReferenceId&, const Reference&)`. -/
def PointCloudMap.addReference {R : Type} (m : PointCloudMap R) (_id : ReferenceId)
    (_ref : Reference) : Bool × PointCloudMap R :=
  let r := m.references.insert _id _ref
  (r.1, { m with references := r.2 })

/-- Method `PointCloudMap::addReference(const std::string&, const std::string&,
const std::string&)`. -/
def PointCloudMap.addReferenceStr {R : Type} (m : PointCloudMap R) (_id _type _data : string) :
    Bool × PointCloudMap R :=
  m.addReference ⟨_id⟩ ⟨_type, _data⟩

/-- Method `PointCloudMap::addPoint(const ReferenceId&, const Vector3f&)`. -/
def PointCloudMap.addPoint {R : Type} (m : PointCloudMap R) (id : ReferenceId)
    (pos : Vector3f R) : Bool × PointCloudMap R :=
  (true, { m with points := m.points.insert ⟨id, pos⟩ })

/-- Method `PointCloudMap::addPoint(const std::string&, const Vector3f&)`. -/
def PointCloudMap.addPointStr {R : Type} (m : PointCloudMap R) (id : string)
    (pos : Vector3f R) : Bool × PointCloudMap R :=
  m.addPoint ⟨id⟩ pos

/-- Method `PointCloudMap::getPoint(const uint64_t&)`. -/
def PointCloudMap.getPoint {R : Type} (m : PointCloudMap R) (i : Nat) : Option (Point3D R) :=
  m.points.getPoint i

/-- Method `PointCloudMap::getPoint(const Vector3f&)`. -/
def PointCloudMap.getPointAt {R : Type} (F : Real32Ops R) (m : PointCloudMap R)
    (pos : Vector3f R) : Option (Point3D R) :=
  m.points.getPointAt F pos

/-- The macro `POINT_CLOUD_MAP_LIBRARY_VERSION`. -/
def POINT_CLOUD_MAP_LIBRARY_VERSION : string := "1.1.0".toList

/-- Method `PointCloudMap::toString`. -/
def PointCloudMap.toString {R : Type} (F : Real32Ops R) (m : PointCloudMap R) : string :=
  let code := "# Point Cloud File\n".toList
  let code := code ++ ("# Version ".toList ++ POINT_CLOUD_MAP_LIBRARY_VERSION ++ ['\n'])
  let code := code ++ m.references.toString
  let code := code ++ m.points.toString F
  code

/-- The body of the `for` loop of `PointCloudMap::fromString` for one line. The variable
`position` of the source is reset and fully assigned before each use. -/
def PointCloudMap.fromString_line {R : Type} (F : Real32Ops R) (gas : Nat)
    (m : PointCloudMap R) (line : string) : Option (PointCloudMap R) :=
  if line.length != 0 then
    match split_string gas line [' '] with
    | none => none
    | some tokens =>
      if h0 : tokens.length > 0 then
        let typeString := c_str tokens[0]
        if strcmp typeString "ref".toList == 0 then
          if h4 : tokens.length ≥ 4 then
            some (m.addReference ⟨tokens[1]⟩ ⟨tokens[2], tokens[3]⟩).2
          else some m
        else if strcmp typeString "point".toList == 0 then
          if h5 : tokens.length ≥ 5 then
            let position := Vector3f.zero F
            let position := { position with value0 := F.atof (c_str tokens[2]) }
            let position := { position with value1 := F.atof (c_str tokens[3]) }
            let position := { position with value2 := F.atof (c_str tokens[4]) }
            some (m.addPointStr tokens[1] position).2
          else some m
        else some m
      else some m
  else some m

/-- The `for (std::string& line : lines)` loop of `PointCloudMap::fromString`. -/
def PointCloudMap.fromString_lines {R : Type} (F : Real32Ops R) (gas : Nat) :
    PointCloudMap R → List string → Option (PointCloudMap R)
  | m, [] => some m
  | m, line :: rest =>
    match PointCloudMap.fromString_line F gas m line with
    | none => none
    | some m1 => PointCloudMap.fromString_lines F gas m1 rest

/-- Method `PointCloudMap::fromString`: the result and the map afterwards. -/
def PointCloudMap.fromString {R : Type} (F : Real32Ops R) (gas : Nat) (m : PointCloudMap R)
    (text : string) : Option (Bool × PointCloudMap R) :=
  match split_lines gas text with
  | none => none
  | some lines =>
    match PointCloudMap.fromString_lines F gas m lines with
    | none => none
    | some m1 => some (true, m1)

/-- The loop of `split_string` seen from the unread rest `u` of the text. -/
def split_suffix (d : string) : Nat → string → Option (List string)
  | 0, _ => none
  | gas + 1, u =>
    if 0 < u.length then
      match findFrom d u 0 with
      | none => some [u]
      | some k => (split_suffix d gas (u.drop (k + d.length))).map (fun l => u.take k :: l)
    else some []

/-! ## An instance of the numeric library -/

/-- The value of the decimal digits that `s` starts with, after the digits read so far. -/
def digits_value : string → Nat → Nat
  | [], acc => acc
  | c :: rest, acc =>
    if c.isDigit then digits_value rest (acc * 10 + (c.toNat - '0'.toNat)) else acc

/-- Modelled from the spec: the C library's `atof`, `std::to_string(float)` and `==` on
`float`, which the header calls and does not define, on integer-valued numbers only, each
number standing for itself. `==` is "exact component-wise comparison", `std::to_string`
prints the "default decimal text representation" of an integer (sign, digits, `.000000`), and
`atof` is "parse-or-zero" on decimal integers: it reads an optional minus sign and the decimal
digits that follow, giving 0 when there are none. Leading whitespace, a plus sign, fractions,
exponents, hexadecimal digits, `inf`, `nan` and the rounding to 24 significant bits are not
modelled; the instance serves only to evaluate the embedding on concrete integer inputs, and
no theorem about every library depends on it. -/
def Real32Ops.integers : Real32Ops Int where
  zero := 0
  eq a b := decide (a = b)
  to_string i := (if i < 0 then ['-'] else []) ++ Nat.toDigits 10 i.natAbs ++ ".000000".toList
  atof s :=
    match s with
    | '-' :: rest => - (digits_value rest 0 : Int)
    | _ => (digits_value s 0 : Int)

/-! ## The reference split -/

/-- The segments of `u` between the successive leftmost occurrences of `d`, each search
starting right after the occurrence before; `n` bounds the number of occurrences. -/
def split_ref_go (d : string) : Nat → string → List string
  | 0, u => [u]
  | n + 1, u =>
    match findFrom d u 0 with
    | none => [u]
    | some k => u.take k :: split_ref_go d n (u.drop (k + d.length))

/-- The reference split of the specification: the segments of `s` lying between the
successive non-overlapping, leftmost-first occurrences of the delimiter. A text without an
occurrence is its own single segment, a text ending in an occurrence has an empty last
segment. -/
def split_ref (s d : string) : List string := split_ref_go d s.length s

/-- The list without its last element when that element is the empty string. -/
def drop_last_empty (l : List string) : List string :=
  if l.getLast? = some [] then l.dropLast else l

/-- The text with every CR LF pair replaced by a single LF, as the specification words the
first step of the line normalisation. -/
def replace_crlf : string → string
  | [] => []
  | [c] => [c]
  | c :: c1 :: rest =>
    if c = '\r' ∧ c1 = '\n' then '\n' :: replace_crlf rest
    else c :: replace_crlf (c1 :: rest)

/-! ## Lines that the decoder passes over -/

/-- A line with its tokens that the specification lists as ignored: the line is empty, or its
first token is neither "ref" nor "point", or it is a "ref" line with fewer than 4 tokens, or
a "point" line with fewer than 5 tokens. -/
def ignored_as_stated (line : string) (tokens : List string) : Bool :=
  line.isEmpty ||
    match tokens with
    | [] => true
    | t0 :: _ =>
      (t0 != "ref".toList && t0 != "point".toList) ||
      (t0 == "ref".toList && decide (tokens.length < 4)) ||
      (t0 == "point".toList && decide (tokens.length < 5))

/-- The same with the first token read as the decoder reads it, up to its first NUL. -/
def ignored (line : string) (tokens : List string) : Bool :=
  line.isEmpty ||
    match tokens with
    | [] => true
    | t0 :: _ =>
      (c_str t0 != "ref".toList && c_str t0 != "point".toList) ||
      (c_str t0 == "ref".toList && decide (tokens.length < 4)) ||
      (c_str t0 == "point".toList && decide (tokens.length < 5))

/-! ## Maps built through the interface -/

/-- The whitespace characters of the C locale: space, tab, line feed, vertical tab, form
feed, carriage return. -/
def is_whitespace (c : Char) : Bool :=
  c == ' ' || c == '\t' || c == '\n' || c == Char.ofNat 11 || c == Char.ofNat 12 || c == '\r'

/-- The string contains no whitespace character. -/
def no_whitespace (s : string) : Bool := s.all (fun c => !is_whitespace c)

/-- A call of `addReference(id, type, value)` or `addPoint(id, position)`. -/
inductive Operation (R : Type) where
  | addReference (id type value : string)
  | addPoint (id : string) (position : Vector3f R)

/-- The map after the call. -/
def Operation.apply {R : Type} (m : PointCloudMap R) : Operation R → PointCloudMap R
  | .addReference id type value => (m.addReferenceStr id type value).2
  | .addPoint id position => (m.addPointStr id position).2

/-- The map built from an empty map by a sequence of calls. -/
def PointCloudMap.build {R : Type} (ops : List (Operation R)) : PointCloudMap R :=
  ops.foldl Operation.apply PointCloudMap.empty

/-- The ids, types and values of the call contain no whitespace character. -/
def Operation.no_whitespace {R : Type} : Operation R → Bool
  | .addReference id type value =>
    pcm.no_whitespace id && pcm.no_whitespace type && pcm.no_whitespace value
  | .addPoint id _ => pcm.no_whitespace id

/-- The three coordinates of a vector. -/
def Vector3f.coordinates {R : Type} (v : Vector3f R) : List R := [v.value0, v.value1, v.value2]

/-- The library renders each coordinate of an `addPoint` call without whitespace. -/
def Operation.rendered {R : Type} (F : Real32Ops R) : Operation R → Bool
  | .addReference _ _ _ => true
  | .addPoint _ position => position.coordinates.all (fun x => pcm.no_whitespace (F.to_string x))

/-- The library renders each coordinate of an `addPoint` call as a non-empty string. -/
def Operation.rendered_present {R : Type} (F : Real32Ops R) : Operation R → Bool
  | .addReference _ _ _ => true
  | .addPoint _ position => position.coordinates.all (fun x => !(F.to_string x).isEmpty)

/-- The coordinate as it is read back from its rendering: `atof` of the C string of
`std::to_string`. -/
def Real32Ops.reread {R : Type} (F : Real32Ops R) (x : R) : R := F.atof (c_str (F.to_string x))

/-- The position as it is read back from its rendering. -/
def Vector3f.reread {R : Type} (F : Real32Ops R) (v : Vector3f R) : Vector3f R :=
  ⟨F.reread v.value0, F.reread v.value1, F.reread v.value2⟩

/-- The line that `ReferenceTable::toString` writes for an entry, without its line feed. -/
def ReferenceTable.line (e : ReferenceId × Reference) : string :=
  "ref ".toList ++ e.1.toString ++ [' '] ++ e.2.toString

/-- The lines of `PointCloudMap::toString`, each without its line feed. -/
def PointCloudMap.lines {R : Type} (F : Real32Ops R) (m : PointCloudMap R) : List string :=
  ["# Point Cloud File".toList, "# Version 1.1.0".toList, []] ++
    m.references.values.map ReferenceTable.line ++ [[], []] ++
    m.points.points.map (fun p => p.toString F) ++ [[]]

/-! ## Sequences of calls -/

/-- A call of `addReference(id, type, value)`, `addPoint(id, position)` or
`fromString(text)`. -/
inductive Call (R : Type) where
  | addReference (id type value : string)
  | addPoint (id : string) (position : Vector3f R)
  | fromString (text : string)

/-- The map after the call, when the call returns within the iteration bound. -/
def Call.apply {R : Type} (F : Real32Ops R) (gas : Nat) (m : PointCloudMap R) :
    Call R → Option (PointCloudMap R)
  | .addReference id type value => some (m.addReferenceStr id type value).2
  | .addPoint id position => some (m.addPointStr id position).2
  | .fromString text => (PointCloudMap.fromString F gas m text).map Prod.snd

/-- The map after a sequence of calls. -/
def PointCloudMap.run {R : Type} (F : Real32Ops R) (gas : Nat) :
    PointCloudMap R → List (Call R) → Option (PointCloudMap R)
  | m, [] => some m
  | m, call :: rest =>
    match call.apply F gas m with
    | none => none
    | some m1 => PointCloudMap.run F gas m1 rest

/-- The ids of the table are strictly increasing in iteration order, as in every
`std::map`. -/
def ReferenceTable.ordered (t : ReferenceTable) : Prop :=
  t.values.Pairwise (fun a b => a.1.value < b.1.value)

/-- The table reached from the empty table by a sequence of `insert` calls. -/
def ReferenceTable.inserted (inserts : List (ReferenceId × Reference)) : ReferenceTable :=
  inserts.foldl (fun t e => (t.insert e.1 e.2).2) ReferenceTable.empty

/-! ## The quote-aware replacement of the specification -/

/-- Scan of the rest `u` of a text from left to right, `inQuotes` telling whether an odd
number of quote characters came before: an occurrence of `f` met outside quotes is replaced
by `r`, one met inside quotes is copied, and the scan goes on right after the occurrence;
any other character is copied, a quote character switching `inQuotes`. -/
def replace_outside_quotes_go (f r : string) : Nat → Bool → string → string
  | 0, _, u => u
  | _ + 1, _, [] => []
  | n + 1, inQuotes, c :: rest =>
    if f.isPrefixOf (c :: rest) then
      (if inQuotes then f else r) ++
        replace_outside_quotes_go f r n inQuotes ((c :: rest).drop f.length)
    else
      c :: replace_outside_quotes_go f r n (if quotes.contains c then !inQuotes else inQuotes)
        rest

/-- The replacement as the specification words it: the occurrences of the non-empty `f` are
scanned from left to right without overlap, and an occurrence is replaced exactly when an
even number of quote characters of `s` precede it. -/
def replace_outside_quotes (s f r : string) : string :=
  replace_outside_quotes_go f r s.length false s

/-! # Theorems -/

/-! ## Facts about the string primitives -/

theorem findFrom_shift (t : string) (u : string) (i : Nat) :
    findFrom t u i = (findFrom t u 0).map (fun k => k + i) := by
  induction u generalizing i with
  | nil => simp [findFrom]
  | cons c rest ih =>
    simp only [findFrom]
    split
    · simp
    · rw [ih (i + 1), ih (0 + 1)]
      cases findFrom t rest 0
      · simp
      · simp; omega

theorem findFrom_some_le (t u : string) (k : Nat) (h : findFrom t u 0 = some k) :
    k + t.length ≤ u.length := by
  induction u generalizing k with
  | nil =>
    simp only [findFrom] at h
    split at h
    · rename_i ht
      simp at h ht
      subst h; subst ht; simp
    · simp at h
  | cons c rest ih =>
    simp only [findFrom] at h
    split at h
    · rename_i hp
      simp at h
      subst h
      have := (List.isPrefixOf_iff_prefix.mp hp).length_le
      simpa using this
    · rw [findFrom_shift] at h
      cases hr : findFrom t rest 0 with
      | none => simp [hr] at h
      | some j =>
        simp [hr] at h
        have := ih j hr
        simp
        omega

theorem find_eq (s t : string) (pos : Nat) (h : pos ≤ s.length) :
    find s t pos = (findFrom t (s.drop pos) 0).map (fun k => k + pos) := by
  unfold find
  rw [if_neg (by omega), findFrom_shift]

theorem find_some_bounds (s t : string) (pos next : Nat) (h : find s t pos = some next) :
    pos ≤ next ∧ next + t.length ≤ s.length := by
  unfold find at h
  split at h
  · simp at h
  · rw [findFrom_shift] at h
    cases hr : findFrom t (s.drop pos) 0 with
    | none => simp [hr] at h
    | some j =>
      simp [hr] at h
      have := findFrom_some_le _ _ _ hr
      simp at this
      omega

theorem split_string_loop_eq (s d : string) (gas pos : Nat) (acc : List string)
    (h : pos ≤ s.length) :
    split_string_loop s d gas pos acc
      = (split_suffix d gas (s.drop pos)).map (fun l => acc ++ l) := by
  induction gas generalizing pos acc with
  | zero => simp [split_string_loop, split_suffix]
  | succ g ih =>
    simp only [split_string_loop, split_suffix, List.length_drop]
    by_cases hp : pos < s.length
    · rw [if_pos hp, if_pos (by omega), find_eq s d pos h]
      cases hr : findFrom d (s.drop pos) 0 with
      | none => simp [substr_to_end]
      | some k =>
        have hb := findFrom_some_le _ _ _ hr
        simp only [List.length_drop] at hb
        simp only [Option.map_some']
        rw [ih (k + pos + d.length) _ (by omega)]
        have e1 : s.drop (k + pos + d.length) = (s.drop pos).drop (k + d.length) := by
          rw [List.drop_drop]; congr 1; omega
        rw [e1]
        cases split_suffix d g ((s.drop pos).drop (k + d.length)) with
        | none => simp
        | some l => simp [substr]
    · rw [if_neg hp, if_neg (by omega)]; simp

theorem split_string_eq (gas : Nat) (s d : string) :
    split_string gas s d = split_suffix d gas s := by
  unfold split_string
  rw [split_string_loop_eq s d gas 0 [] (Nat.zero_le _)]
  simp only [List.drop_zero]
  cases split_suffix d gas s <;> simp

/-! ## The reference table -/

theorem ReferenceId.equiv_iff (a b : ReferenceId) :
    (!(a.lt b) && !(b.lt a)) = true ↔ a = b := by
  cases a with | mk x => cases b with | mk y =>
  simp only [ReferenceId.lt, Bool.and_eq_true, Bool.not_eq_true', decide_eq_false_iff_not,
    ReferenceId.mk.injEq]
  constructor
  · rintro ⟨h1, h2⟩
    exact le_antisymm (not_lt.mp h2) (not_lt.mp h1)
  · rintro rfl
    exact ⟨lt_irrefl _, lt_irrefl _⟩

theorem map_contains_iff (values : List (ReferenceId × Reference)) (id : ReferenceId) :
    map_contains values id = true ↔ id ∈ values.map Prod.fst := by
  unfold map_contains
  simp only [List.any_eq_true, List.mem_map]
  constructor
  · rintro ⟨e, he, h⟩
    exact ⟨e, he, (ReferenceId.equiv_iff _ _).mp h⟩
  · rintro ⟨e, he, h⟩
    exact ⟨e, he, (ReferenceId.equiv_iff _ _).mpr h⟩

theorem mem_map_assign (values : List (ReferenceId × Reference)) (id : ReferenceId)
    (ref : Reference) (h : id ∉ values.map Prod.fst) (e : ReferenceId × Reference) :
    e ∈ map_assign values id ref ↔ e = (id, ref) ∨ e ∈ values := by
  induction values with
  | nil => simp [map_assign]
  | cons x rest ih =>
    have hx : x.1 ≠ id := fun hc => h (by simp [hc])
    have hr : id ∉ rest.map Prod.fst := fun hc => h (by simp at hc ⊢; exact Or.inr hc)
    simp only [map_assign]
    split
    · simp
    · split
      · simp only [List.mem_cons, ih hr]
        tauto
      · rename_i h1 h2
        exact absurd ((ReferenceId.equiv_iff x.1 id).mp (by simp [h1, h2])) hx

theorem insert_present (t : ReferenceTable) (id : ReferenceId) (r : Reference)
    (h : id ∈ t.values.map Prod.fst) : t.insert id r = (false, t) := by
  unfold ReferenceTable.insert ReferenceTable.in
  rw [(map_contains_iff _ _).mpr h]
  rfl

theorem insert_absent (t : ReferenceTable) (id : ReferenceId) (r : Reference)
    (h : id ∉ t.values.map Prod.fst) :
    t.insert id r = (true, ⟨map_assign t.values id r⟩) := by
  unfold ReferenceTable.insert ReferenceTable.in
  have : map_contains t.values id = false := by
    rw [← Bool.not_eq_true, map_contains_iff]; exact h
  rw [this]
  rfl

/-- C3. Duplicate rejection: `ReferenceTable::insert` returns false and leaves the table
as it is when the id is already a key; otherwise it returns true and the entries afterwards
are the new entry `(id, r)` and exactly the previous entries. `PointCloudMap::addReference`
returns what `insert` returns, stores the table `insert` leaves, and keeps the points. On an
empty map `addReference("a","t1","v1")` returns true, a following
`addReference("a","t2","v2")` returns false, and the table still holds ("a","t1","v1"). -/
theorem insert_duplicate_rejection (t : ReferenceTable) (id : ReferenceId) (r : Reference) :
    (id ∈ t.values.map Prod.fst → t.insert id r = (false, t)) ∧
    (id ∉ t.values.map Prod.fst →
      (t.insert id r).1 = true ∧
      ∀ e, e ∈ (t.insert id r).2.values ↔ e = (id, r) ∨ e ∈ t.values) ∧
    (∀ (R : Type) (m : PointCloudMap R),
      m.references = t →
      (m.addReference id r).1 = (t.insert id r).1 ∧
      (m.addReference id r).2.references = (t.insert id r).2 ∧
      (m.addReference id r).2.points = m.points) ∧
    (∀ (R : Type),
      let m1 := (PointCloudMap.empty : PointCloudMap R).addReferenceStr
        "a".toList "t1".toList "v1".toList
      let m2 := m1.2.addReferenceStr "a".toList "t2".toList "v2".toList
      m1.1 = true ∧ m2.1 = false ∧ m2.2 = m1.2 ∧
      m2.2.references.getReferenceList = [(⟨"a".toList⟩, ⟨"t1".toList, "v1".toList⟩)]) := by
  refine ⟨insert_present t id r, fun h => ?_, ?_, ?_⟩
  · rw [insert_absent t id r h]
    exact ⟨rfl, fun e => mem_map_assign t.values id r h e⟩
  · rintro R m rfl
    exact ⟨rfl, rfl, rfl⟩
  · intro R
    exact ⟨rfl, rfl, rfl, rfl⟩

/-! ## The point table -/

theorem find_loop_range {R : Type} (F : Real32Ops R) (position : Vector3f R)
    (l : List (Point3D R)) (i : Int) :
    PointTable.find_loop F position l i = -1 ∨
      (i ≤ PointTable.find_loop F position l i ∧
        PointTable.find_loop F position l i < i + l.length) := by
  induction l generalizing i with
  | nil => simp [PointTable.find_loop]
  | cons p rest ih =>
    simp only [PointTable.find_loop]
    split
    · right
      refine ⟨le_refl _, ?_⟩
      simp only [List.length_cons]; push_cast; omega
    · rcases ih (i + 1) with h | h
      · left; exact h
      · right; simp only [List.length_cons]; push_cast; omega

theorem find_loop_none {R : Type} (F : Real32Ops R) (position : Vector3f R)
    (l : List (Point3D R)) (i : Int) (hi : 0 ≤ i) :
    PointTable.find_loop F position l i = -1 ↔ ∀ q ∈ l, q.position.eq F position = false := by
  induction l generalizing i with
  | nil => simp [PointTable.find_loop]
  | cons p rest ih =>
    simp only [PointTable.find_loop, List.mem_cons, forall_eq_or_imp]
    split
    · rename_i h
      simp [h]; omega
    · rename_i h
      rw [ih (i + 1) (by omega)]
      simp [h]

theorem find_loop_index {R : Type} (F : Real32Ops R) (position : Vector3f R)
    (l : List (Point3D R)) (i : Int) (hi : 0 ≤ i) (k : Nat) :
    PointTable.find_loop F position l i = i + k ↔
      ∃ h : k < l.length, (l[k]).position.eq F position = true ∧
        ∀ j (hj : j < k), (l[j]).position.eq F position = false := by
  induction l generalizing i k with
  | nil =>
    simp only [PointTable.find_loop, List.length_nil, Nat.not_lt_zero, IsEmpty.exists_iff,
      iff_false]
    omega
  | cons p rest ih =>
    simp only [PointTable.find_loop]
    cases k with
    | zero =>
      split
      · rename_i h; simp [h]
      · rename_i h
        have := find_loop_range F position rest (i + 1)
        constructor
        · intro hc; simp at hc; omega
        · rintro ⟨_, h2, _⟩
          simp [h] at h2
    | succ k =>
      split
      · rename_i h
        constructor
        · intro hc; push_cast at hc; omega
        · rintro ⟨_, _, h2⟩
          have := h2 0 (by omega)
          simp [h] at this
      · rename_i h
        have e : (i + ((k + 1 : Nat) : Int) = (i + 1) + (k : Int)) := by push_cast; omega
        rw [e, ih (i + 1) (by omega) k]
        constructor
        · rintro ⟨h1, h2, h3⟩
          refine ⟨by simpa using h1, by simpa using h2, ?_⟩
          intro j hj
          cases j with
          | zero => simpa using h
          | succ j => simpa using h3 j (by omega)
        · rintro ⟨h1, h2, h3⟩
          refine ⟨by simpa using h1, by simpa using h2, ?_⟩
          intro j hj
          simpa using h3 (j + 1) (by omega)
theorem Vector3f.eq_iff {R : Type} (F : Real32Ops R) (A B : Vector3f R) :
    A.eq F B = true ↔
      (F.eq A.value0 B.value0 = true ∧ F.eq A.value1 B.value1 = true ∧
        F.eq A.value2 B.value2 = true) := by
  simp [Vector3f.eq, and_assoc]

/-- C4. The lookup by position against the lookup by found index: when `find` reports the
index 0, `getPoint(position)` returns null although `getPoint(0)` returns a point at that
position; it agrees with `getPoint(find(position))` when `find` reports a positive index,
and returns null when `find` reports -1. -/
theorem getPointAt_misses_index_zero {R : Type} (F : Real32Ops R) (t : PointTable R)
    (p : Vector3f R) :
    (t.find F p = 0 →
      t.getPointAt F p = none ∧ ∃ q, t.getPoint 0 = some q ∧ q.position.eq F p = true) ∧
    (0 < t.find F p → t.getPointAt F p = t.getPoint (t.find F p).toNat) ∧
    (t.find F p = -1 → t.getPointAt F p = none) ∧
    (∀ m : PointCloudMap R, m.points = t → m.getPointAt F p = t.getPointAt F p) := by
  refine ⟨fun h => ⟨?_, ?_⟩, fun h => ?_, fun h => ?_, ?_⟩
  · simp [PointTable.getPointAt, h]
  · have h0 : PointTable.find_loop F p t.points 0 = 0 + ((0 : Nat) : Int) := by
      simpa [PointTable.find] using h
    obtain ⟨hl, he, _⟩ := (find_loop_index F p t.points 0 (le_refl _) 0).mp h0
    exact ⟨t.points[0], by simp [PointTable.getPoint, hl], he⟩
  · simp [PointTable.getPointAt, h]
  · simp [PointTable.getPointAt, h]
  · rintro m rfl; rfl

/-- C4, at a concrete table: one point at {0,0,0}; `find` reports index 0, `getPoint(0)`
returns the point, `getPoint({0,0,0})` returns null. -/
theorem getPointAt_misses_index_zero_witness :
    (PointTable.find Real32Ops.integers ⟨[⟨⟨"a".toList⟩, ⟨0, 0, 0⟩⟩]⟩ ⟨0, 0, 0⟩ = 0) ∧
    (PointTable.getPoint (⟨[⟨⟨"a".toList⟩, ⟨0, 0, 0⟩⟩]⟩ : PointTable Int) 0
      = some ⟨⟨"a".toList⟩, ⟨0, 0, 0⟩⟩) ∧
    (PointTable.getPointAt Real32Ops.integers ⟨[⟨⟨"a".toList⟩, ⟨0, 0, 0⟩⟩]⟩ ⟨0, 0, 0⟩ = none) :=
  ⟨by decide, by decide,
    ((getPointAt_misses_index_zero Real32Ops.integers ⟨[⟨⟨"a".toList⟩, ⟨0, 0, 0⟩⟩]⟩
      ⟨0, 0, 0⟩).1 (by decide)).1⟩

/-- C5. First-match search: `PointTable::find(p)` returns either -1 or an index; it returns
the index `i` exactly when the `i`-th point's position equals `p` component-wise and no
point before it does, and -1 exactly when no point of the table has position `p`. After
`addPoint("a",{0,0,0})` twice on an empty map the table has length 2 and `find({0,0,0})`
returns 0 (zero being equal to itself). -/
theorem find_first_match {R : Type} (F : Real32Ops R) (t : PointTable R) (p : Vector3f R) :
    (∀ A B : Vector3f R, A.eq F B = true ↔
      (F.eq A.value0 B.value0 = true ∧ F.eq A.value1 B.value1 = true ∧
        F.eq A.value2 B.value2 = true)) ∧
    (t.find F p = -1 ∨ ∃ i : Nat, t.find F p = (i : Int) ∧ i < t.points.length) ∧
    (∀ i : Nat, t.find F p = (i : Int) ↔
      ∃ h : i < t.points.length, (t.points[i]).position.eq F p = true ∧
        ∀ j (hj : j < i), (t.points[j]).position.eq F p = false) ∧
    (t.find F p = -1 ↔ ∀ q ∈ t.points, q.position.eq F p = false) ∧
    (F.eq F.zero F.zero = true →
      let m := (((PointCloudMap.empty : PointCloudMap R).addPointStr "a".toList
        (Vector3f.zero F)).2.addPointStr "a".toList (Vector3f.zero F)).2
      m.points.points.length = 2 ∧ m.points.find F (Vector3f.zero F) = 0) := by
  refine ⟨Vector3f.eq_iff F, ?_, ?_, ?_, ?_⟩
  · rcases find_loop_range F p t.points 0 with h | ⟨h1, h2⟩
    · left; exact h
    · right
      refine ⟨(PointTable.find_loop F p t.points 0).toNat, ?_, ?_⟩
      · simp only [PointTable.find]; omega
      · omega
  · intro i
    have := find_loop_index F p t.points 0 (le_refl _) i
    simpa [PointTable.find] using this
  · exact find_loop_none F p t.points 0 (le_refl _)
  · intro h0
    simp [PointCloudMap.addPointStr, PointCloudMap.addPoint, PointCloudMap.empty,
      PointTable.empty, PointTable.insert, PointTable.find, PointTable.find_loop,
      Vector3f.eq, Vector3f.zero, h0]

/-- C5, evaluated on integer coordinates: two points at {0,0,0}, and `find` returns 0. -/
theorem find_first_match_witness :
    PointTable.find Real32Ops.integers
      (((PointCloudMap.empty : PointCloudMap Int).addPointStr "a".toList ⟨0, 0, 0⟩).2.addPointStr
        "a".toList ⟨0, 0, 0⟩).2.points ⟨0, 0, 0⟩ = 0 :=
  ((find_first_match Real32Ops.integers ⟨[]⟩ ⟨0, 0, 0⟩).2.2.2.2 (by decide)).2

/-! ## The split -/

theorem split_ref_go_ne_nil (d : string) (n : Nat) (u : string) : split_ref_go d n u ≠ [] := by
  cases n with
  | zero => simp [split_ref_go]
  | succ n =>
    simp only [split_ref_go]
    split <;> simp

theorem drop_last_empty_cons (x : string) (l : List string) (h : l ≠ []) :
    drop_last_empty (x :: l) = x :: drop_last_empty l := by
  unfold drop_last_empty
  cases l with
  | nil => exact absurd rfl h
  | cons y l =>
    rw [List.getLast?_cons_cons]
    split <;> simp [List.dropLast]

theorem findFrom_nil (d : string) (hd : d ≠ []) (i : Nat) : findFrom d [] i = none := by
  cases d with
  | nil => exact absurd rfl hd
  | cons c d => simp [findFrom]

theorem split_suffix_spec (d : string) (hd : d ≠ []) (n : Nat) (u : string) (gas : Nat)
    (hn : u.length ≤ n) (hg : u.length < gas) :
    split_suffix d gas u = some (drop_last_empty (split_ref_go d n u)) := by
  induction n generalizing u gas with
  | zero =>
    have hu : u = [] := List.length_eq_zero.mp (by omega)
    subst hu
    cases gas with
    | zero => omega
    | succ g => simp [split_suffix, split_ref_go, drop_last_empty]
  | succ n ih =>
    cases gas with
    | zero => omega
    | succ g =>
      simp only [split_suffix, split_ref_go]
      by_cases hu : 0 < u.length
      · rw [if_pos hu]
        cases hr : findFrom d u 0 with
        | none =>
          have : u ≠ [] := fun h => by simp [h] at hu
          simp [drop_last_empty, this]
        | some k =>
          have hb := findFrom_some_le _ _ _ hr
          have hdl : 0 < d.length := List.length_pos.mpr hd
          have hl : (u.drop (k + d.length)).length ≤ n := by
            simp only [List.length_drop]; omega
          have hl2 : (u.drop (k + d.length)).length < g := by
            simp only [List.length_drop]; omega
          simp only []
          rw [ih _ g hl hl2, drop_last_empty_cons _ _ (split_ref_go_ne_nil _ _ _)]
          rfl
      · have hu2 : u = [] := List.length_eq_zero.mp (by omega)
        subst hu2
        simp [findFrom_nil d hd, drop_last_empty]

theorem split_string_spec (s d : string) (hd : d ≠ []) (gas : Nat) (hg : s.length < gas) :
    split_string gas s d = some (drop_last_empty (split_ref s d)) := by
  rw [split_string_eq]
  exact split_suffix_spec d hd s.length s gas (le_refl _) hg

theorem split_string_no_occurrence (s d : string) (gas : Nat) (hg : 0 < gas)
    (hf : findFrom d s 0 = none) (hs : s ≠ []) : split_string gas s d = some [s] := by
  rw [split_string_eq]
  cases gas with
  | zero => omega
  | succ g =>
    simp [split_suffix, hf, List.length_pos.mpr hs]

theorem split_string_nil (d : string) (gas : Nat) (hg : 0 < gas) :
    split_string gas [] d = some [] := by
  rw [split_string_eq]
  cases gas with
  | zero => omega
  | succ g => simp [split_suffix]

theorem split_suffix_mono (d : string) (g g1 : Nat) (u : string) (r : List string)
    (h : split_suffix d g u = some r) (hg : g ≤ g1) : split_suffix d g1 u = some r := by
  induction g generalizing g1 u r with
  | zero => simp [split_suffix] at h
  | succ g ih =>
    cases g1 with
    | zero => omega
    | succ g1 =>
      simp only [split_suffix] at h ⊢
      split
      · rename_i hu
        rw [if_pos hu] at h
        cases hr : findFrom d u 0 with
        | none => simpa [hr] using h
        | some k =>
          simp only [hr] at h ⊢
          cases hs : split_suffix d g (u.drop (k + d.length)) with
          | none => simp [hs] at h
          | some l =>
            rw [ih g1 _ l hs (by omega)]
            simpa [hs] using h
      · rename_i hu
        rw [if_neg hu] at h
        exact h

theorem split_string_mono (g g1 : Nat) (s d : string) (r : List string)
    (h : split_string g s d = some r) (hg : g ≤ g1) : split_string g1 s d = some r := by
  rw [split_string_eq] at h ⊢
  exact split_suffix_mono d g g1 s r h hg

theorem replaceAll_quotes_mono (tmp : string) (pos g g1 : Nat) (a : Bool) (q : Option Nat)
    (r : Bool × Option Nat) (h : replaceAll_quotes tmp pos g a q = some r) (hg : g ≤ g1) :
    replaceAll_quotes tmp pos g1 a q = some r := by
  induction g generalizing g1 a q with
  | zero => simp [replaceAll_quotes] at h
  | succ g ih =>
    cases g1 with
    | zero => omega
    | succ g1 =>
      cases q with
      | none => simpa [replaceAll_quotes] using h
      | some q =>
        simp only [replaceAll_quotes] at h ⊢
        split
        · rename_i hq
          rw [if_pos hq] at h
          cases hf : find_first_of tmp quotes q with
          | none =>
            simp only [hf] at h ⊢
            exact ih g1 _ _ h (by omega)
          | some q1 =>
            simp only [hf] at h ⊢
            split
            · rename_i h1
              rw [if_pos h1] at h
              exact ih g1 _ _ h (by omega)
            · rename_i h1
              rw [if_neg h1] at h
              exact ih g1 _ _ h (by omega)
        · rename_i hq
          rw [if_neg hq] at h
          exact h

theorem replaceAll_loop_mono (gas gas1 : Nat) (f r : string) (n n1 : Nat) (tmp : string)
    (a : Bool) (q p : Option Nat) (out : string)
    (h : replaceAll_loop gas f r n tmp a q p = some out) (hg : gas ≤ gas1) (hn : n ≤ n1) :
    replaceAll_loop gas1 f r n1 tmp a q p = some out := by
  induction n generalizing n1 tmp a q p with
  | zero => simp [replaceAll_loop] at h
  | succ n ih =>
    cases n1 with
    | zero => omega
    | succ n1 =>
      cases p with
      | none => simpa [replaceAll_loop] using h
      | some p =>
        simp only [replaceAll_loop] at h ⊢
        cases hq : replaceAll_quotes tmp p gas a q with
        | none => simp [hq] at h
        | some res =>
          rw [replaceAll_quotes_mono tmp p gas gas1 a q res hq hg]
          simp only [hq] at h
          obtain ⟨a1, q1⟩ := res
          simp only at h ⊢
          split
          · rename_i ha
            rw [if_pos ha] at h
            exact ih n1 _ _ _ _ h (by omega)
          · rename_i ha
            rw [if_neg ha] at h
            exact ih n1 _ _ _ _ h (by omega)

theorem replaceAll_mono (g g1 : Nat) (s f r out : string)
    (h : replaceAll g s f r = some out) (hg : g ≤ g1) : replaceAll g1 s f r = some out := by
  unfold replaceAll at h ⊢
  exact replaceAll_loop_mono g g1 f r g g1 s false (some 0) _ out h hg hg

theorem split_lines_strip_mono (g g1 : Nat) (lines out : List string)
    (h : split_lines_strip g lines = some out) (hg : g ≤ g1) :
    split_lines_strip g1 lines = some out := by
  induction lines generalizing out with
  | nil => simpa [split_lines_strip] using h
  | cons line rest ih =>
    simp only [split_lines_strip] at h ⊢
    cases h1 : replaceAll g line ['\n'] [] with
    | none => simp [h1] at h
    | some line1 =>
      rw [replaceAll_mono g g1 _ _ _ _ h1 hg]
      simp only [h1] at h ⊢
      cases h2 : split_lines_strip g rest with
      | none => simp [h2] at h
      | some rest1 =>
        rw [ih rest1 h2]
        simpa [h2] using h

theorem split_lines_mono (g g1 : Nat) (data : string) (out : List string)
    (h : split_lines g data = some out) (hg : g ≤ g1) : split_lines g1 data = some out := by
  unfold split_lines at h ⊢
  cases h1 : replaceAll g data ['\r', '\n'] ['\n'] with
  | none => simp [h1] at h
  | some data1 =>
    rw [replaceAll_mono g g1 _ _ _ _ h1 hg]
    simp only [h1] at h ⊢
    cases h2 : split_string g data1 ['\n'] with
    | none => simp [h2] at h
    | some lines =>
      rw [split_string_mono g g1 _ _ _ h2 hg]
      simp only [h2] at h ⊢
      exact split_lines_strip_mono g g1 _ _ h hg

/-! ## The loops finish -/

theorem find_first_of_from_ge (cs u : string) (i k : Nat)
    (h : find_first_of_from cs u i = some k) : i ≤ k := by
  induction u generalizing i with
  | nil => simp [find_first_of_from] at h
  | cons c rest ih =>
    simp only [find_first_of_from] at h
    split at h
    · simp at h; omega
    · have := ih (i + 1) h; omega

theorem replaceAll_quotes_total (tmp : string) (pos g : Nat) (a : Bool) (q : Option Nat)
    (hg : q.elim 0 (fun q0 => pos - q0) + 2 ≤ g) :
    ∃ r, replaceAll_quotes tmp pos g a q = some r := by
  induction g generalizing a q with
  | zero => omega
  | succ g ih =>
    cases q with
    | none => exact ⟨(a, none), by simp [replaceAll_quotes]⟩
    | some q0 =>
      simp only [Option.elim] at hg
      simp only [replaceAll_quotes]
      split
      · rename_i hq
        cases hf : find_first_of tmp quotes q0 with
        | none =>
          simp only []
          exact ih a none (by simp only [Option.elim]; omega)
        | some q1 =>
          have hge := find_first_of_from_ge _ _ _ _ hf
          simp only []
          split
          · exact ih _ _ (by simp only [Option.elim]; omega)
          · exact ih _ _ (by simp only [Option.elim]; omega)
      · exact ⟨_, rfl⟩

theorem replaceAll_loop_total (gas : Nat) (f r : string) (hf : f ≠ [])
    (hr : r.length ≤ f.length) (n : Nat) (tmp : string) (a : Bool) (q p : Option Nat)
    (hp : ∀ p0, p = some p0 → p0 + f.length ≤ tmp.length)
    (hn : p.elim 0 (fun p0 => tmp.length - p0 + 1) + 1 ≤ n)
    (hg : tmp.length + 2 ≤ gas) :
    ∃ out, replaceAll_loop gas f r n tmp a q p = some out ∧ out.length ≤ tmp.length := by
  have hfl : 0 < f.length := List.length_pos.mpr hf
  induction n generalizing tmp a q p with
  | zero => omega
  | succ n ih =>
    cases p with
    | none => exact ⟨tmp, by simp [replaceAll_loop], le_refl _⟩
    | some p0 =>
      have hp0 := hp p0 rfl
      simp only [Option.elim] at hn
      simp only [replaceAll_loop]
      obtain ⟨⟨a1, q1⟩, hq⟩ := replaceAll_quotes_total tmp p0 gas a q (by
        cases q with
        | none => simp only [Option.elim]; omega
        | some q0 => simp only [Option.elim]; omega)
      rw [hq]
      simp only []
      split
      · have hlen : (replace tmp p0 f.length r).length = tmp.length - f.length + r.length := by
          simp only [replace, List.length_append, List.length_take, List.length_drop]
          omega
        obtain ⟨out, h1, h2⟩ := ih (replace tmp p0 f.length r) a1 q1
          (find (replace tmp p0 f.length r) f (p0 + r.length))
          (fun p1 h => (find_some_bounds _ _ _ _ h).2)
          (by
            cases hfd : find (replace tmp p0 f.length r) f (p0 + r.length) with
            | none => simp only [Option.elim]; omega
            | some p1 =>
              have := find_some_bounds _ _ _ _ hfd
              simp only [Option.elim]; omega)
          (by omega)
        exact ⟨out, h1, by omega⟩
      · exact ih tmp a1 q1 (find tmp f (p0 + f.length))
          (fun p1 h => (find_some_bounds _ _ _ _ h).2)
          (by
            cases hfd : find tmp f (p0 + f.length) with
            | none => simp only [Option.elim]; omega
            | some p1 =>
              have := find_some_bounds _ _ _ _ hfd
              simp only [Option.elim]; omega)
          hg

theorem replaceAll_total (gas : Nat) (s f r : string) (hf : f ≠ [])
    (hr : r.length ≤ f.length) (hg : s.length + 2 ≤ gas) :
    ∃ out, replaceAll gas s f r = some out ∧ out.length ≤ s.length := by
  unfold replaceAll
  simp only [lt_self_iff_false, if_false, Int.toNat_zero]
  apply replaceAll_loop_total gas f r hf hr gas s false (some 0) (find s f 0)
    (fun p1 h => (find_some_bounds _ _ _ _ h).2) _ hg
  cases find s f 0 with
  | none => simp only [Option.elim]; omega
  | some p1 => simp only [Option.elim]; omega

theorem split_suffix_length (d : string) (g : Nat) (u : string) (l : List string)
    (h : split_suffix d g u = some l) : ∀ x ∈ l, x.length ≤ u.length := by
  induction g generalizing u l with
  | zero => simp [split_suffix] at h
  | succ g ih =>
    simp only [split_suffix] at h
    split at h
    · cases hr : findFrom d u 0 with
      | none =>
        simp [hr] at h
        subst h
        simp
      | some k =>
        simp only [hr] at h
        cases hs : split_suffix d g (u.drop (k + d.length)) with
        | none => simp [hs] at h
        | some l1 =>
          simp [hs] at h
          subst h
          intro x hx
          rcases List.mem_cons.mp hx with rfl | hx
          · simp [List.length_take]
          · have := ih _ _ hs x hx
            simp only [List.length_drop] at this
            omega
    · simp at h; subst h; simp

theorem split_string_total (gas : Nat) (s d : string) (hd : d ≠ []) (hg : s.length < gas) :
    ∃ l, split_string gas s d = some l ∧ ∀ x ∈ l, x.length ≤ s.length := by
  refine ⟨_, split_string_spec s d hd gas hg, ?_⟩
  have := split_string_spec s d hd gas hg
  rw [split_string_eq] at this
  exact split_suffix_length d gas s _ this

theorem split_lines_strip_total (gas : Nat) (lines : List string) (b : Nat)
    (hb : ∀ x ∈ lines, x.length ≤ b) (hg : b + 2 ≤ gas) :
    ∃ out, split_lines_strip gas lines = some out ∧ ∀ x ∈ out, x.length ≤ b := by
  induction lines with
  | nil => exact ⟨[], rfl, by simp⟩
  | cons line rest ih =>
    have hl := hb line (List.mem_cons_self _ _)
    obtain ⟨line1, h1, h2⟩ := replaceAll_total gas line ['\n'] [] (by simp) (by simp) (by omega)
    obtain ⟨rest1, h3, h4⟩ := ih (fun x hx => hb x (List.mem_cons_of_mem _ hx))
    refine ⟨line1 :: rest1, by simp [split_lines_strip, h1, h3], ?_⟩
    intro x hx
    rcases List.mem_cons.mp hx with rfl | hx
    · omega
    · exact h4 x hx

theorem split_lines_total (gas : Nat) (data : string) (hg : data.length + 2 ≤ gas) :
    ∃ lines, split_lines gas data = some lines ∧ ∀ x ∈ lines, x.length ≤ data.length := by
  obtain ⟨data1, h1, h2⟩ := replaceAll_total gas data ['\r', '\n'] ['\n'] (by simp) (by simp) hg
  obtain ⟨l, h3, h4⟩ := split_string_total gas data1 ['\n'] (by simp) (by omega)
  obtain ⟨out, h5, h6⟩ := split_lines_strip_total gas l data.length
    (fun x hx => le_trans (h4 x hx) h2) hg
  exact ⟨out, by simp [split_lines, h1, h3, h5], h6⟩

/-! ## Decoding finishes -/

theorem fromString_line_total {R : Type} (F : Real32Ops R) (gas : Nat) (m : PointCloudMap R)
    (line : string) (hg : line.length + 2 ≤ gas) :
    ∃ m1, PointCloudMap.fromString_line F gas m line = some m1 := by
  obtain ⟨tokens, h1, _⟩ := split_string_total gas line [' '] (by simp) (by omega)
  unfold PointCloudMap.fromString_line
  rw [h1]
  simp only []
  repeat' split
  all_goals exact ⟨_, rfl⟩

theorem fromString_lines_total {R : Type} (F : Real32Ops R) (gas : Nat) (m : PointCloudMap R)
    (lines : List string) (hg : ∀ x ∈ lines, x.length + 2 ≤ gas) :
    ∃ m1, PointCloudMap.fromString_lines F gas m lines = some m1 := by
  induction lines generalizing m with
  | nil => exact ⟨m, rfl⟩
  | cons line rest ih =>
    obtain ⟨m1, h1⟩ := fromString_line_total F gas m line (hg line (List.mem_cons_self _ _))
    obtain ⟨m2, h2⟩ := ih m1 (fun x hx => hg x (List.mem_cons_of_mem _ hx))
    exact ⟨m2, by simp [PointCloudMap.fromString_lines, h1, h2]⟩

theorem fromString_line_mono {R : Type} (F : Real32Ops R) (g g1 : Nat) (m m1 : PointCloudMap R)
    (line : string) (h : PointCloudMap.fromString_line F g m line = some m1) (hg : g ≤ g1) :
    PointCloudMap.fromString_line F g1 m line = some m1 := by
  unfold PointCloudMap.fromString_line at h ⊢
  split
  · rename_i hl
    rw [if_pos hl] at h
    cases hs : split_string g line [' '] with
    | none => simp [hs] at h
    | some tokens =>
      rw [split_string_mono g g1 _ _ _ hs hg]
      simpa [hs] using h
  · rename_i hl
    rw [if_neg hl] at h
    exact h

theorem fromString_lines_mono {R : Type} (F : Real32Ops R) (g g1 : Nat)
    (m m1 : PointCloudMap R) (lines : List string)
    (h : PointCloudMap.fromString_lines F g m lines = some m1) (hg : g ≤ g1) :
    PointCloudMap.fromString_lines F g1 m lines = some m1 := by
  induction lines generalizing m with
  | nil => simpa [PointCloudMap.fromString_lines] using h
  | cons line rest ih =>
    simp only [PointCloudMap.fromString_lines] at h ⊢
    cases h1 : PointCloudMap.fromString_line F g m line with
    | none => simp [h1] at h
    | some m2 =>
      rw [fromString_line_mono F g g1 m m2 line h1 hg]
      simp only [h1] at h ⊢
      exact ih m2 h

theorem fromString_mono {R : Type} (F : Real32Ops R) (g g1 : Nat) (m : PointCloudMap R)
    (text : string) (r : Bool × PointCloudMap R)
    (h : PointCloudMap.fromString F g m text = some r) (hg : g ≤ g1) :
    PointCloudMap.fromString F g1 m text = some r := by
  unfold PointCloudMap.fromString at h ⊢
  cases h1 : split_lines g text with
  | none => simp [h1] at h
  | some lines =>
    rw [split_lines_mono g g1 _ _ h1 hg]
    simp only [h1] at h ⊢
    cases h2 : PointCloudMap.fromString_lines F g m lines with
    | none => simp [h2] at h
    | some m1 =>
      rw [fromString_lines_mono F g g1 m m1 lines h2 hg]
      simpa [h2] using h

theorem fromString_some {R : Type} (F : Real32Ops R) (gas : Nat) (m : PointCloudMap R)
    (text : string) (hg : text.length + 2 ≤ gas) :
    ∃ m1, PointCloudMap.fromString F gas m text = some (true, m1) := by
  obtain ⟨lines, h1, h2⟩ := split_lines_total gas text hg
  obtain ⟨m1, h3⟩ := fromString_lines_total F gas m lines (fun x hx => by
    have := h2 x hx; omega)
  exact ⟨m1, by simp [PointCloudMap.fromString, h1, h3]⟩

/-- C8. Decode is total: for every input text and every starting map there are a sequence of
lines and a final map such that, with any bound of at least `text.length + 2` iterations on
each loop, the CR LF replacement finishes, the line splitting returns these lines, the space
tokenising of each line finishes, and `fromString` returns true with that final map. -/
theorem fromString_total {R : Type} (F : Real32Ops R) (m : PointCloudMap R) (text : string) :
    ∃ (lines : List string) (m1 : PointCloudMap R), ∀ gas, text.length + 2 ≤ gas →
      (∃ data1, replaceAll gas text ['\r', '\n'] ['\n'] = some data1) ∧
      split_lines gas text = some lines ∧
      (∀ line ∈ lines, ∃ tokens, split_string gas line [' '] = some tokens) ∧
      PointCloudMap.fromString F gas m text = some (true, m1) := by
  obtain ⟨lines, h1, h2⟩ := split_lines_total (text.length + 2) text (le_refl _)
  obtain ⟨m1, h3⟩ := fromString_some F (text.length + 2) m text (le_refl _)
  refine ⟨lines, m1, fun gas hg => ⟨?_, ?_, ?_, ?_⟩⟩
  · obtain ⟨d, hd, _⟩ := replaceAll_total gas text ['\r', '\n'] ['\n'] (by simp) (by simp) hg
    exact ⟨d, hd⟩
  · exact split_lines_mono _ _ _ _ h1 hg
  · intro line hl
    obtain ⟨t, ht, _⟩ := split_string_total gas line [' '] (by simp) (by
      have := h2 line hl; omega)
    exact ⟨t, ht⟩
  · exact fromString_mono F _ _ m text _ h3 hg

/-- C7 fails inside quotes: in the text `'` CR LF every carriage return is followed by a line
feed, and replacing the CR LF pair by LF and splitting at LF gives the single line `'`; but
`split_lines` leaves the pair after the quote character alone and returns, whenever it
returns, the single line `'` CR, which contains a carriage return. -/
theorem split_lines_keeps_quoted_carriage_return :
    replace_crlf [Char.ofNat 39, '\r', '\n'] = [Char.ofNat 39, '\n'] ∧
    split_string 3 (replace_crlf [Char.ofNat 39, '\r', '\n']) ['\n'] = some [[Char.ofNat 39]] ∧
    split_lines 5 [Char.ofNat 39, '\r', '\n'] = some [[Char.ofNat 39, '\r']] ∧
    (∀ gas lines, split_lines gas [Char.ofNat 39, '\r', '\n'] = some lines →
      lines = [[Char.ofNat 39, '\r']]) := by
  refine ⟨by decide, by decide, by decide, ?_⟩
  intro gas lines h
  have h5 : split_lines 5 [Char.ofNat 39, '\r', '\n'] = some [[Char.ofNat 39, '\r']] := by
    decide
  rcases Nat.le_total gas 5 with hg | hg
  · have := split_lines_mono _ _ _ _ h hg
    rw [h5] at this
    exact (Option.some.inj this).symm
  · have := split_lines_mono _ _ _ _ h5 hg
    rw [h] at this
    exact Option.some.inj this

/-! ## Decoding line by line -/

theorem strcmp_eq_zero (a b : string) : (strcmp a b == 0) = decide (a = b) := by
  unfold strcmp
  by_cases h : a = b
  · simp [h]
  · simp only [h, if_false]
    split <;> simp

theorem fromString_line_ignored {R : Type} (F : Real32Ops R) (gas : Nat) (m : PointCloudMap R)
    (line : string) (tokens : List string) (ht : split_string gas line [' '] = some tokens)
    (hi : ignored line tokens = true) :
    PointCloudMap.fromString_line F gas m line = some m := by
  unfold PointCloudMap.fromString_line
  rw [ht]
  simp only [strcmp_eq_zero]
  unfold ignored at hi
  by_cases hl : line = []
  · simp [hl]
  · have hl2 : (line.length != 0) = true := by simpa using hl
    rw [if_pos hl2]
    cases tokens with
    | nil => simp
    | cons t0 ts =>
      have hl3 : line.isEmpty = false := by
        cases line with
        | nil => exact absurd rfl hl
        | cons c l => rfl
      simp only [hl3, Bool.false_or, Bool.or_eq_true, Bool.and_eq_true, bne_iff_ne, ne_eq,
        beq_iff_eq, decide_eq_true_eq] at hi
      simp only [List.length_cons, gt_iff_lt, Nat.zero_lt_succ, ↓reduceDIte,
        List.getElem_cons_zero, decide_eq_true_eq, ge_iff_le]
      rcases hi with (⟨h1, h2⟩ | ⟨h1, h2⟩) | ⟨h1, h2⟩
      · rw [if_neg h1, if_neg h2]
      · simp only [List.length_cons] at h2
        rw [if_pos h1, dif_neg (by omega)]
      · simp only [List.length_cons] at h2
        have : c_str t0 ≠ "ref".toList := by rw [h1]; decide
        rw [if_neg this, if_pos h1, dif_neg (by omega)]

theorem fromString_lines_ignored {R : Type} (F : Real32Ops R) (gas : Nat)
    (m : PointCloudMap R) (lines : List string)
    (h : ∀ line ∈ lines, ∃ tokens, split_string gas line [' '] = some tokens ∧
      ignored line tokens = true) :
    PointCloudMap.fromString_lines F gas m lines = some m := by
  induction lines with
  | nil => rfl
  | cons line rest ih =>
    obtain ⟨tokens, ht, hi⟩ := h line (List.mem_cons_self _ _)
    simp only [PointCloudMap.fromString_lines, fromString_line_ignored F gas m line tokens ht hi]
    exact ih (fun l hl => h l (List.mem_cons_of_mem _ hl))

/-- C9, as the code has it. Malformed-line tolerance: when every line of the text (as
`split_lines` returns them) is empty, or has a first space-delimited token that reads, up to
its first NUL character, as neither "ref" nor "point", or reads as "ref" with fewer than 4
tokens, or as "point" with fewer than 5 tokens, `fromString` returns true and leaves the
reference table and the point table of the map unchanged. -/
theorem fromString_malformed_lines {R : Type} (F : Real32Ops R) (m : PointCloudMap R)
    (text : string) (gas : Nat) (hg : text.length + 2 ≤ gas)
    (h : ∀ lines, split_lines gas text = some lines →
      ∀ line ∈ lines, ∀ tokens, split_string gas line [' '] = some tokens →
        ignored line tokens = true) :
    PointCloudMap.fromString F gas m text = some (true, m) := by
  obtain ⟨lines, h1, h2⟩ := split_lines_total gas text hg
  unfold PointCloudMap.fromString
  rw [h1]
  simp only []
  rw [fromString_lines_ignored F gas m lines]
  intro line hl
  obtain ⟨tokens, ht, _⟩ := split_string_total gas line [' '] (by simp) (by
    have := h2 line hl; omega)
  exact ⟨tokens, ht, h lines h1 line hl tokens ht⟩

/-- C9, evaluated: decoding "ref x\npoint y 1 2\n" into an empty map yields an empty map. -/
theorem fromString_malformed_lines_witness :
    PointCloudMap.fromString Real32Ops.integers 20 PointCloudMap.empty
      "ref x\npoint y 1 2\n".toList = some (true, PointCloudMap.empty) :=
  fromString_malformed_lines Real32Ops.integers PointCloudMap.empty
    "ref x\npoint y 1 2\n".toList 20 (by decide) (by
      intro lines hl
      have e : split_lines 20 "ref x\npoint y 1 2\n".toList
          = some ["ref x".toList, "point y 1 2".toList] := by decide
      rw [e] at hl
      cases hl
      intro line hm tokens ht
      simp only [List.mem_cons, List.mem_singleton, List.not_mem_nil, or_false] at hm
      rcases hm with rfl | rfl
      · have e1 : split_string 20 "ref x".toList [' '] = some ["ref".toList, "x".toList] := by
          decide
        rw [e1] at ht
        cases ht
        decide
      · have e1 : split_string 20 "point y 1 2".toList [' ']
            = some ["point".toList, "y".toList, "1".toList, "2".toList] := by decide
        rw [e1] at ht
        cases ht
        decide)

/-- C9 as stated fails on a first token that differs from "ref" only after a NUL character:
the single line "ref", NUL, " a b c" has the first token "ref" NUL, which is neither "ref"
nor "point", and decoding it into an empty map adds the reference a -> (b, c). -/
theorem fromString_reads_first_token_up_to_nul :
    split_lines 13 "ref\x00 a b c".toList = some ["ref\x00 a b c".toList] ∧
    split_string 13 "ref\x00 a b c".toList [' ']
      = some ["ref\x00".toList, "a".toList, "b".toList, "c".toList] ∧
    ignored_as_stated "ref\x00 a b c".toList
      ["ref\x00".toList, "a".toList, "b".toList, "c".toList] = true ∧
    PointCloudMap.fromString Real32Ops.integers 13 PointCloudMap.empty "ref\x00 a b c".toList
      = some (true, ⟨⟨[(⟨"a".toList⟩, ⟨"b".toList, "c".toList⟩)]⟩, ⟨[]⟩⟩) := by
  refine ⟨by decide, by decide, by decide, by decide⟩

/-! ## Texts in which the searched string does not occur -/

theorem starts_with_mem (t u : string) (h : t.isPrefixOf u = true) : ∀ c ∈ t, c ∈ u := by
  intro c hc
  exact (List.isPrefixOf_iff_prefix.mp h).subset hc

theorem findFrom_none_of_not_mem (t u : string) (c : Char) (hc : c ∈ t) (hu : c ∉ u)
    (i : Nat) : findFrom t u i = none := by
  induction u generalizing i with
  | nil =>
    cases t with
    | nil => simp at hc
    | cons x t => simp [findFrom]
  | cons x rest ih =>
    simp only [findFrom]
    split
    · rename_i hp
      exact absurd (starts_with_mem t (x :: rest) hp c hc) hu
    · exact ih (fun hm => hu (List.mem_cons_of_mem _ hm)) (i + 1)

theorem replaceAll_of_find_none (gas : Nat) (s f r : string) (hg : 0 < gas)
    (h : findFrom f s 0 = none) : replaceAll gas s f r = some s := by
  unfold replaceAll
  simp only [lt_self_iff_false, if_false, Int.toNat_zero]
  rw [find_eq s f 0 (Nat.zero_le _)]
  simp only [List.drop_zero, h, Option.map_none']
  cases gas with
  | zero => omega
  | succ g => simp [replaceAll_loop]

theorem split_lines_strip_id (gas : Nat) (hg : 0 < gas) (lines : List string)
    (h : ∀ l ∈ lines, '\n' ∉ l) : split_lines_strip gas lines = some lines := by
  induction lines with
  | nil => rfl
  | cons line rest ih =>
    simp only [split_lines_strip]
    rw [replaceAll_of_find_none gas line ['\n'] [] hg
      (findFrom_none_of_not_mem _ _ '\n' (by simp) (h line (List.mem_cons_self _ _)) 0)]
    simp only []
    rw [ih (fun l hl => h l (List.mem_cons_of_mem _ hl))]

theorem split_lines_single (gas : Nat) (hg : 0 < gas) (line : string) (hn : '\n' ∉ line)
    (hne : line ≠ []) : split_lines gas line = some [line] := by
  unfold split_lines
  rw [replaceAll_of_find_none gas line ['\r', '\n'] ['\n'] hg
    (findFrom_none_of_not_mem _ _ '\n' (by simp) hn 0)]
  simp only []
  rw [split_string_no_occurrence line ['\n'] gas hg
    (findFrom_none_of_not_mem _ _ '\n' (by simp) hn 0) hne]
  simp only []
  exact split_lines_strip_id gas hg [line] (by simpa using hn)

theorem split_string_gas_pos (gas : Nat) (s d : string) (l : List string)
    (h : split_string gas s d = some l) : 0 < gas := by
  cases gas with
  | zero => simp [split_string, split_string_loop] at h
  | succ g => omega

theorem split_string_ne_nil (gas : Nat) (s d : string) (l : List string)
    (h : split_string gas s d = some l) (hl : l ≠ []) : s ≠ [] := by
  rintro rfl
  rw [split_string_nil d gas (split_string_gas_pos _ _ _ _ h)] at h
  exact hl (Option.some.inj h).symm

theorem c_str_ref : c_str "ref".toList = "ref".toList := by decide

theorem c_str_point : c_str "point".toList = "point".toList := by decide

theorem fromString_line_ref {R : Type} (F : Real32Ops R) (gas : Nat) (m : PointCloudMap R)
    (line t0 t1 t2 t3 : string) (rest : List string)
    (ht : split_string gas line [' '] = some (t0 :: t1 :: t2 :: t3 :: rest))
    (h0 : c_str t0 = "ref".toList) :
    PointCloudMap.fromString_line F gas m line = some (m.addReferenceStr t1 t2 t3).2 := by
  have hne := split_string_ne_nil _ _ _ _ ht (by simp)
  unfold PointCloudMap.fromString_line
  rw [ht]
  have hl2 : (line.length != 0) = true := by simpa using hne
  simp [strcmp_eq_zero, hl2, h0, PointCloudMap.addReferenceStr]

theorem fromString_ref_line_tokens {R : Type} (F : Real32Ops R) (m : PointCloudMap R)
    (gas : Nat) (line t1 t2 t3 : string) (rest : List string) (hn : '\n' ∉ line)
    (ht : split_string gas line [' '] = some ("ref".toList :: t1 :: t2 :: t3 :: rest)) :
    PointCloudMap.fromString F gas m line = some (true, (m.addReferenceStr t1 t2 t3).2) := by
  have hg := split_string_gas_pos _ _ _ _ ht
  have hne := split_string_ne_nil _ _ _ _ ht (by simp)
  unfold PointCloudMap.fromString
  rw [split_lines_single gas hg line hn hne]
  simp only [PointCloudMap.fromString_lines]
  rw [fromString_line_ref F gas m line _ t1 t2 t3 rest ht c_str_ref]

/-! ## Splitting at a single character -/

theorem findFrom_char (c : Char) (l rest : string) (hl : c ∉ l) :
    findFrom [c] (l ++ c :: rest) 0 = some l.length := by
  induction l with
  | nil => simp [findFrom, List.isPrefixOf]
  | cons x l ih =>
    have hx : x ≠ c := fun h => hl (by simp [h])
    have hl1 : c ∉ l := fun h => hl (List.mem_cons_of_mem _ h)
    have e : (x :: l) ++ c :: rest = x :: (l ++ c :: rest) := rfl
    rw [e]
    simp only [findFrom]
    rw [if_neg (by simp [List.isPrefixOf, hx.symm])]
    rw [findFrom_shift, ih hl1]
    simp

theorem split_suffix_first (c : Char) (l rest : string) (hl : c ∉ l) (g : Nat) :
    split_suffix [c] (g + 1) (l ++ c :: rest)
      = (split_suffix [c] g rest).map (fun ts => l :: ts) := by
  simp only [split_suffix]
  rw [if_pos (by simp), findFrom_char c l rest hl]
  simp

theorem split_suffix_terminated (c : Char) (ls : List string) (h : ∀ l ∈ ls, c ∉ l) (g : Nat)
    (hg : (ls.flatMap (fun l => l ++ [c])).length < g) :
    split_suffix [c] g (ls.flatMap (fun l => l ++ [c])) = some ls := by
  induction ls generalizing g with
  | nil =>
    cases g with
    | zero => simp at hg
    | succ g => simp [split_suffix]
  | cons l ls ih =>
    cases g with
    | zero => simp at hg
    | succ g =>
      simp only [List.flatMap_cons, List.append_assoc, List.singleton_append]
      rw [split_suffix_first c l _ (h l (List.mem_cons_self _ _)) g]
      rw [ih (fun x hx => h x (List.mem_cons_of_mem _ hx)) g (by
        simp only [List.flatMap_cons, List.length_append, List.length_singleton] at hg
        omega)]
      rfl

theorem split_suffix_tokens (c : Char) (t : string) (ts : List string)
    (h : ∀ l ∈ t :: ts, c ∉ l) (hlast : (t :: ts).getLast (by simp) ≠ []) (g : Nat)
    (hg : (List.intercalate [c] (t :: ts)).length < g) :
    split_suffix [c] g (List.intercalate [c] (t :: ts)) = some (t :: ts) := by
  induction ts generalizing t g with
  | nil =>
    have ht : t ≠ [] := by simpa using hlast
    cases g with
    | zero => simp at hg
    | succ g =>
      simp only [List.intercalate, List.intersperse, List.flatten, List.append_nil]
      simp only [split_suffix]
      rw [if_pos (List.length_pos.mpr ht),
        findFrom_none_of_not_mem [c] t c (by simp) (h t (List.mem_cons_self _ _)) 0]
  | cons t1 ts ih =>
    cases g with
    | zero => simp at hg
    | succ g =>
      have e : List.intercalate [c] (t :: t1 :: ts) = t ++ c :: List.intercalate [c] (t1 :: ts) := by
        simp [List.intercalate, List.intersperse]
      rw [e] at hg ⊢
      rw [split_suffix_first c t _ (h t (List.mem_cons_self _ _)) g]
      rw [ih t1 (fun x hx => h x (List.mem_cons_of_mem _ hx))
        (by simpa [List.getLast_cons] using hlast) g (by
          simp only [List.length_append, List.length_cons] at hg
          omega)]
      rfl

/-! ## The encoding as a sequence of lines -/

theorem foldl_append_eq {α : Type} (f : α → string) (l : List α) (init : string) :
    l.foldl (fun str e => str ++ f e) init = init ++ l.flatMap f := by
  induction l generalizing init with
  | nil => simp
  | cons x l ih => simp [ih, List.append_assoc]

theorem toString_eq_lines {R : Type} (F : Real32Ops R) (m : PointCloudMap R) :
    m.toString F = (m.lines F).flatMap (fun l => l ++ ['\n']) := by
  simp only [PointCloudMap.toString, ReferenceTable.toString, PointTable.toString,
    foldl_append_eq, PointCloudMap.lines, POINT_CLOUD_MAP_LIBRARY_VERSION,
    List.flatMap_append, List.flatMap_map]
  have e1 : ∀ l : List (ReferenceId × Reference),
      l.flatMap ReferenceTable.toString_entry
        = l.flatMap (fun e => ReferenceTable.line e ++ ['\n']) := by
    intro l; rfl
  rw [e1]
  simp [List.append_assoc]

/-! ## Decoding the lines of an encoding -/

theorem no_whitespace_not_mem (s : string) (h : no_whitespace s = true) :
    ' ' ∉ s ∧ '\n' ∉ s ∧ '\r' ∉ s := by
  unfold no_whitespace at h
  rw [List.all_eq_true] at h
  refine ⟨fun hc => ?_, fun hc => ?_, fun hc => ?_⟩
  · have := h _ hc; simp [is_whitespace] at this
  · have := h _ hc; simp [is_whitespace] at this
  · have := h _ hc; simp [is_whitespace] at this

theorem split_lines_terminated (gas : Nat) (ls : List string)
    (h : ∀ l ∈ ls, '\n' ∉ l ∧ '\r' ∉ l)
    (hg : (ls.flatMap (fun l => l ++ ['\n'])).length < gas) :
    split_lines gas (ls.flatMap (fun l => l ++ ['\n'])) = some ls := by
  have hr : '\r' ∉ ls.flatMap (fun l => l ++ ['\n']) := by
    simp only [List.mem_flatMap, List.mem_append, List.mem_singleton, not_exists, not_and,
      not_or]
    intro l hl
    exact ⟨(h l hl).2, by decide⟩
  unfold split_lines
  rw [replaceAll_of_find_none gas _ ['\r', '\n'] ['\n'] (by omega)
    (findFrom_none_of_not_mem _ _ '\r' (by simp) hr 0)]
  simp only []
  rw [split_string_eq, split_suffix_terminated '\n' ls (fun l hl => (h l hl).1) gas hg]
  simp only []
  exact split_lines_strip_id gas (by omega) ls (fun l hl => (h l hl).1)

theorem fromString_lines_append {R : Type} (F : Real32Ops R) (gas : Nat) (m : PointCloudMap R)
    (l1 l2 : List string) :
    PointCloudMap.fromString_lines F gas m (l1 ++ l2)
      = (PointCloudMap.fromString_lines F gas m l1).bind
          (fun m1 => PointCloudMap.fromString_lines F gas m1 l2) := by
  induction l1 generalizing m with
  | nil => rfl
  | cons l l1 ih =>
    simp only [List.cons_append, PointCloudMap.fromString_lines]
    cases PointCloudMap.fromString_line F gas m l with
    | none => rfl
    | some m1 => exact ih m1

theorem fromString_line_ref_points {R : Type} (F : Real32Ops R) (gas : Nat)
    (m : PointCloudMap R) (line t0 : string) (ts : List string)
    (ht : split_string gas line [' '] = some (t0 :: ts)) (h0 : c_str t0 = "ref".toList) :
    ∃ m1, PointCloudMap.fromString_line F gas m line = some m1 ∧ m1.points = m.points := by
  have hne := split_string_ne_nil _ _ _ _ ht (by simp)
  have hl2 : (line.length != 0) = true := by simpa using hne
  unfold PointCloudMap.fromString_line
  rw [ht]
  simp only [hl2, if_true, strcmp_eq_zero, List.length_cons, gt_iff_lt, Nat.zero_lt_succ,
    ↓reduceDIte, List.getElem_cons_zero, h0, decide_True]
  by_cases h4 : ts.length + 1 ≥ 4
  · rw [dif_pos h4]; exact ⟨_, rfl, rfl⟩
  · rw [dif_neg h4]; exact ⟨_, rfl, rfl⟩

theorem fromString_line_point_references {R : Type} (F : Real32Ops R) (gas : Nat)
    (m : PointCloudMap R) (line t0 : string) (ts : List string)
    (ht : split_string gas line [' '] = some (t0 :: ts)) (h0 : c_str t0 = "point".toList) :
    ∃ m1, PointCloudMap.fromString_line F gas m line = some m1 ∧
      m1.references = m.references := by
  have hne := split_string_ne_nil _ _ _ _ ht (by simp)
  have hl2 : (line.length != 0) = true := by simpa using hne
  have hr : c_str t0 ≠ "ref".toList := by rw [h0]; decide
  unfold PointCloudMap.fromString_line
  rw [ht]
  simp only [hl2, if_true, strcmp_eq_zero, List.length_cons, gt_iff_lt, Nat.zero_lt_succ,
    ↓reduceDIte, List.getElem_cons_zero, h0, hr, decide_True, decide_False]
  by_cases h5 : ts.length + 1 ≥ 5
  · rw [dif_pos h5]; exact ⟨_, rfl, rfl⟩
  · rw [dif_neg h5]; exact ⟨_, rfl, rfl⟩

theorem fromString_line_point {R : Type} (F : Real32Ops R) (gas : Nat) (m : PointCloudMap R)
    (line t0 t1 t2 t3 t4 : string) (rest : List string)
    (ht : split_string gas line [' '] = some (t0 :: t1 :: t2 :: t3 :: t4 :: rest))
    (h0 : c_str t0 = "point".toList) :
    PointCloudMap.fromString_line F gas m line
      = some (m.addPointStr t1
          ⟨F.atof (c_str t2), F.atof (c_str t3), F.atof (c_str t4)⟩).2 := by
  have hne := split_string_ne_nil _ _ _ _ ht (by simp)
  have hr : c_str t0 ≠ "ref".toList := by rw [h0]; decide
  unfold PointCloudMap.fromString_line
  rw [ht]
  have hl2 : (line.length != 0) = true := by simpa using hne
  simp [strcmp_eq_zero, hl2, h0, hr, Vector3f.zero]

theorem split_string_first_token (gas : Nat) (t0 rest : string) (h0 : ' ' ∉ t0)
    (hg : (t0 ++ ' ' :: rest).length < gas) :
    ∃ ts, split_string gas (t0 ++ ' ' :: rest) [' '] = some (t0 :: ts) := by
  cases gas with
  | zero => omega
  | succ g =>
    rw [split_string_eq, split_suffix_first ' ' t0 rest h0 g]
    have hl : rest.length < g := by
      simp only [List.length_append, List.length_cons] at hg; omega
    rw [split_suffix_spec [' '] (by simp) rest.length rest g (le_refl _) hl]
    exact ⟨_, rfl⟩

theorem ReferenceTable.line_eq_tokens (e : ReferenceId × Reference) :
    ReferenceTable.line e
      = List.intercalate [' '] ["ref".toList, e.1.value, e.2.type, e.2.value] := by
  simp [ReferenceTable.line, ReferenceId.toString, Reference.toString, List.intercalate,
    List.intersperse]

theorem ReferenceTable.line_eq_first (e : ReferenceId × Reference) :
    ReferenceTable.line e
      = "ref".toList ++ ' ' :: (e.1.value ++ [' '] ++ e.2.toString) := by
  simp [ReferenceTable.line, ReferenceId.toString]

theorem Point3D.toString_eq_tokens {R : Type} (F : Real32Ops R) (p : Point3D R) :
    p.toString F
      = List.intercalate [' '] ["point".toList, p.reference.value,
          F.to_string p.position.value0, F.to_string p.position.value1,
          F.to_string p.position.value2] := by
  simp [Point3D.toString, ReferenceId.toString, Vector3f.toString, List.intercalate,
    List.intersperse]

theorem Point3D.toString_eq_first {R : Type} (F : Real32Ops R) (p : Point3D R) :
    p.toString F
      = "point".toList ++ ' ' :: (p.reference.value ++ [' '] ++ p.position.toString F) := by
  simp [Point3D.toString, ReferenceId.toString]

theorem fromString_line_entry {R : Type} (F : Real32Ops R) (gas : Nat) (m : PointCloudMap R)
    (e : ReferenceId × Reference)
    (h1 : no_whitespace e.1.value = true) (h2 : no_whitespace e.2.type = true)
    (h3 : no_whitespace e.2.value = true) (h4 : e.2.value ≠ [])
    (hg : (ReferenceTable.line e).length < gas) :
    PointCloudMap.fromString_line F gas m (ReferenceTable.line e)
      = some (m.addReference e.1 e.2).2 := by
  have ht : split_string gas (ReferenceTable.line e) [' ']
      = some ["ref".toList, e.1.value, e.2.type, e.2.value] := by
    rw [split_string_eq, ReferenceTable.line_eq_tokens] at *
    apply split_suffix_tokens ' ' _ _ _ _ gas hg
    · intro l hl
      simp only [List.mem_cons, List.mem_singleton, List.not_mem_nil, or_false] at hl
      rcases hl with rfl | rfl | rfl | rfl
      · decide
      · exact (no_whitespace_not_mem _ h1).1
      · exact (no_whitespace_not_mem _ h2).1
      · exact (no_whitespace_not_mem _ h3).1
    · simpa using h4
  rw [fromString_line_ref F gas m _ _ _ _ _ [] ht c_str_ref]
  rfl

theorem fromString_line_entry_points {R : Type} (F : Real32Ops R) (gas : Nat)
    (m : PointCloudMap R) (e : ReferenceId × Reference)
    (hg : (ReferenceTable.line e).length < gas) :
    ∃ m1, PointCloudMap.fromString_line F gas m (ReferenceTable.line e) = some m1 ∧
      m1.points = m.points := by
  rw [ReferenceTable.line_eq_first] at hg ⊢
  obtain ⟨ts, ht⟩ := split_string_first_token gas "ref".toList _ (by decide) hg
  exact fromString_line_ref_points F gas m _ _ ts ht c_str_ref

theorem fromString_line_of_point {R : Type} (F : Real32Ops R) (gas : Nat)
    (m : PointCloudMap R) (p : Point3D R)
    (h1 : no_whitespace p.reference.value = true)
    (h2 : ∀ x ∈ p.position.coordinates, no_whitespace (F.to_string x) = true)
    (h3 : F.to_string p.position.value2 ≠ [])
    (hg : (p.toString F).length < gas) :
    PointCloudMap.fromString_line F gas m (p.toString F)
      = some ⟨m.references, m.points.insert ⟨p.reference, p.position.reread F⟩⟩ := by
  have ht : split_string gas (p.toString F) [' ']
      = some ["point".toList, p.reference.value, F.to_string p.position.value0,
          F.to_string p.position.value1, F.to_string p.position.value2] := by
    rw [split_string_eq, Point3D.toString_eq_tokens] at *
    apply split_suffix_tokens ' ' _ _ _ _ gas hg
    · intro l hl
      simp only [List.mem_cons, List.mem_singleton, List.not_mem_nil, or_false] at hl
      rcases hl with rfl | rfl | rfl | rfl | rfl
      · decide
      · exact (no_whitespace_not_mem _ h1).1
      · exact (no_whitespace_not_mem _ (h2 _ (by simp [Vector3f.coordinates]))).1
      · exact (no_whitespace_not_mem _ (h2 _ (by simp [Vector3f.coordinates]))).1
      · exact (no_whitespace_not_mem _ (h2 _ (by simp [Vector3f.coordinates]))).1
    · simpa using h3
  rw [fromString_line_point F gas m _ _ _ _ _ _ [] ht c_str_point]
  rfl

theorem fromString_line_of_point_references {R : Type} (F : Real32Ops R) (gas : Nat)
    (m : PointCloudMap R) (p : Point3D R) (hg : (p.toString F).length < gas) :
    ∃ m1, PointCloudMap.fromString_line F gas m (p.toString F) = some m1 ∧
      m1.references = m.references := by
  rw [Point3D.toString_eq_first] at hg ⊢
  obtain ⟨ts, ht⟩ := split_string_first_token gas "point".toList _ (by decide) hg
  exact fromString_line_point_references F gas m _ _ ts ht c_str_point

theorem fromString_lines_entries {R : Type} (F : Real32Ops R) (gas : Nat)
    (entries : List (ReferenceId × Reference)) (m : PointCloudMap R)
    (h : ∀ e ∈ entries, no_whitespace e.1.value = true ∧ no_whitespace e.2.type = true ∧
      no_whitespace e.2.value = true ∧ e.2.value ≠ [] ∧ (ReferenceTable.line e).length < gas) :
    PointCloudMap.fromString_lines F gas m (entries.map ReferenceTable.line)
      = some ⟨entries.foldl (fun t e => (t.insert e.1 e.2).2) m.references, m.points⟩ := by
  induction entries generalizing m with
  | nil => rfl
  | cons e rest ih =>
    obtain ⟨h1, h2, h3, h4, h5⟩ := h e (List.mem_cons_self _ _)
    simp only [List.map_cons, PointCloudMap.fromString_lines,
      fromString_line_entry F gas m e h1 h2 h3 h4 h5]
    rw [ih _ (fun x hx => h x (List.mem_cons_of_mem _ hx))]
    rfl

theorem fromString_lines_entries_points {R : Type} (F : Real32Ops R) (gas : Nat)
    (entries : List (ReferenceId × Reference)) (m : PointCloudMap R)
    (h : ∀ e ∈ entries, (ReferenceTable.line e).length < gas) :
    ∃ m1, PointCloudMap.fromString_lines F gas m (entries.map ReferenceTable.line) = some m1 ∧
      m1.points = m.points := by
  induction entries generalizing m with
  | nil => exact ⟨m, rfl, rfl⟩
  | cons e rest ih =>
    obtain ⟨m1, h1, h2⟩ := fromString_line_entry_points F gas m e (h e (List.mem_cons_self _ _))
    obtain ⟨m2, h3, h4⟩ := ih m1 (fun x hx => h x (List.mem_cons_of_mem _ hx))
    exact ⟨m2, by simp [PointCloudMap.fromString_lines, h1, h3], h4.trans h2⟩

theorem fromString_lines_of_points {R : Type} (F : Real32Ops R) (gas : Nat)
    (pts : List (Point3D R)) (m : PointCloudMap R)
    (h : ∀ p ∈ pts, no_whitespace p.reference.value = true ∧
      (∀ x ∈ p.position.coordinates, no_whitespace (F.to_string x) = true) ∧
      F.to_string p.position.value2 ≠ [] ∧ (p.toString F).length < gas) :
    PointCloudMap.fromString_lines F gas m (pts.map (fun p => p.toString F))
      = some ⟨m.references,
          ⟨m.points.points ++ pts.map (fun p => ⟨p.reference, p.position.reread F⟩)⟩⟩ := by
  induction pts generalizing m with
  | nil => simp [PointCloudMap.fromString_lines]
  | cons p rest ih =>
    obtain ⟨h1, h2, h3, h4⟩ := h p (List.mem_cons_self _ _)
    simp only [List.map_cons, PointCloudMap.fromString_lines,
      fromString_line_of_point F gas m p h1 h2 h3 h4]
    rw [ih _ (fun x hx => h x (List.mem_cons_of_mem _ hx))]
    simp [PointTable.insert]

theorem fromString_lines_of_points_references {R : Type} (F : Real32Ops R) (gas : Nat)
    (pts : List (Point3D R)) (m : PointCloudMap R)
    (h : ∀ p ∈ pts, (p.toString F).length < gas) :
    ∃ m1, PointCloudMap.fromString_lines F gas m (pts.map (fun p => p.toString F)) = some m1 ∧
      m1.references = m.references := by
  induction pts generalizing m with
  | nil => exact ⟨m, rfl, rfl⟩
  | cons p rest ih =>
    obtain ⟨m1, h1, h2⟩ :=
      fromString_line_of_point_references F gas m p (h p (List.mem_cons_self _ _))
    obtain ⟨m2, h3, h4⟩ := ih m1 (fun x hx => h x (List.mem_cons_of_mem _ hx))
    exact ⟨m2, by simp [PointCloudMap.fromString_lines, h1, h3], h4.trans h2⟩

/-! ## The order of the reference table -/

theorem map_assign_last (pre : List (ReferenceId × Reference)) (id : ReferenceId)
    (ref : Reference) (h : ∀ x ∈ pre, x.1.value < id.value) :
    map_assign pre id ref = pre ++ [(id, ref)] := by
  induction pre with
  | nil => rfl
  | cons x pre ih =>
    have hx := h x (List.mem_cons_self _ _)
    simp only [map_assign, ReferenceId.lt]
    rw [if_neg (by simpa using le_of_lt hx), if_pos (by simpa using hx)]
    rw [ih (fun y hy => h y (List.mem_cons_of_mem _ hy))]
    rfl

theorem insert_fold_sorted (pre post : List (ReferenceId × Reference))
    (h : (pre ++ post).Pairwise (fun a b => a.1.value < b.1.value)) :
    post.foldl (fun (t : ReferenceTable) e => (t.insert e.1 e.2).2) ⟨pre⟩
      = (⟨pre ++ post⟩ : ReferenceTable) := by
  induction post generalizing pre with
  | nil => simp
  | cons e post ih =>
    have hlt : ∀ x ∈ pre, x.1.value < e.1.value := by
      intro x hx
      exact (List.pairwise_append.mp h).2.2 x hx e (List.mem_cons_self _ _)
    have habs : e.1 ∉ pre.map Prod.fst := by
      intro hc
      obtain ⟨x, hx, hxe⟩ := List.mem_map.mp hc
      have := hlt x hx
      rw [hxe] at this
      exact lt_irrefl _ this
    simp only [List.foldl_cons]
    rw [insert_absent ⟨pre⟩ e.1 e.2 habs]
    simp only []
    rw [map_assign_last pre e.1 e.2 hlt, ih (pre ++ [e]) (by simpa using h)]
    simp

theorem map_assign_pairwise (values : List (ReferenceId × Reference)) (id : ReferenceId)
    (ref : Reference) (hs : values.Pairwise (fun a b => a.1.value < b.1.value))
    (h : id ∉ values.map Prod.fst) :
    (map_assign values id ref).Pairwise (fun a b => a.1.value < b.1.value) := by
  induction values with
  | nil => simp [map_assign]
  | cons x rest ih =>
    have hx : x.1 ≠ id := fun hc => h (by simp [hc])
    have hr : id ∉ rest.map Prod.fst := fun hc => h (by simp at hc ⊢; exact Or.inr hc)
    obtain ⟨hx1, hx2⟩ := List.pairwise_cons.mp hs
    simp only [map_assign, ReferenceId.lt]
    split
    · rename_i hlt
      have hlt1 : id.value < x.1.value := by simpa using hlt
      refine List.pairwise_cons.mpr ⟨?_, hs⟩
      intro y hy
      rcases List.mem_cons.mp hy with rfl | hy
      · exact hlt1
      · exact lt_trans hlt1 (hx1 y hy)
    · split
      · rename_i _ hlt
        have hlt1 : x.1.value < id.value := by simpa using hlt
        refine List.pairwise_cons.mpr ⟨?_, ih hx2 hr⟩
        intro y hy
        rcases (mem_map_assign rest id ref hr y).mp hy with rfl | hy
        · exact hlt1
        · exact hx1 y hy
      · rename_i h1 h2
        exfalso
        apply hx
        have h1a : ¬ id.value < x.1.value := by simpa using h1
        have h2a : ¬ x.1.value < id.value := by simpa using h2
        cases x with | mk xi xr => cases xi with | mk xv => cases id with | mk iv =>
        simp only [ReferenceId.mk.injEq]
        exact le_antisymm (not_lt.mp h1a) (not_lt.mp h2a)

/-! ## The maps built through the interface -/

theorem insert_cases (t : ReferenceTable) (id : ReferenceId) (r : Reference) :
    (t.insert id r).2 = t ∨
      (id ∉ t.values.map Prod.fst ∧ (t.insert id r).2 = ⟨map_assign t.values id r⟩) := by
  by_cases h : id ∈ t.values.map Prod.fst
  · left; rw [insert_present t id r h]
  · right; exact ⟨h, by rw [insert_absent t id r h]⟩

theorem foldl_apply_sorted {R : Type} (ops : List (Operation R)) (m : PointCloudMap R)
    (hs : m.references.values.Pairwise (fun a b => a.1.value < b.1.value)) :
    (ops.foldl Operation.apply m).references.values.Pairwise
      (fun a b => a.1.value < b.1.value) := by
  induction ops generalizing m with
  | nil => exact hs
  | cons op ops ih =>
    apply ih
    cases op with
    | addReference id type value =>
      simp only [Operation.apply, PointCloudMap.addReferenceStr, PointCloudMap.addReference]
      rcases insert_cases m.references ⟨id⟩ ⟨type, value⟩ with h | ⟨h1, h2⟩
      · rw [h]; exact hs
      · rw [h2]; exact map_assign_pairwise _ _ _ hs h1
    | addPoint id position => exact hs

theorem foldl_apply_entries {R : Type} (P : ReferenceId × Reference → Prop)
    (ops : List (Operation R)) (m : PointCloudMap R)
    (hm : ∀ e ∈ m.references.values, P e)
    (hops : ∀ id type value, Operation.addReference id type value ∈ ops →
      P (⟨id⟩, ⟨type, value⟩)) :
    ∀ e ∈ (ops.foldl Operation.apply m).references.values, P e := by
  induction ops generalizing m with
  | nil => exact hm
  | cons op ops ih =>
    apply ih
    · cases op with
      | addReference id type value =>
        simp only [Operation.apply, PointCloudMap.addReferenceStr, PointCloudMap.addReference]
        rcases insert_cases m.references ⟨id⟩ ⟨type, value⟩ with h | ⟨h1, h2⟩
        · rw [h]; exact hm
        · rw [h2]
          intro e he
          rcases (mem_map_assign _ _ _ h1 e).mp he with rfl | he
          · exact hops id type value (List.mem_cons_self _ _)
          · exact hm e he
      | addPoint id position => exact hm
    · intro id type value h
      exact hops id type value (List.mem_cons_of_mem _ h)

theorem foldl_apply_points {R : Type} (Q : Point3D R → Prop)
    (ops : List (Operation R)) (m : PointCloudMap R)
    (hm : ∀ p ∈ m.points.points, Q p)
    (hops : ∀ id position, Operation.addPoint id position ∈ ops → Q ⟨⟨id⟩, position⟩) :
    ∀ p ∈ (ops.foldl Operation.apply m).points.points, Q p := by
  induction ops generalizing m with
  | nil => exact hm
  | cons op ops ih =>
    apply ih
    · cases op with
      | addReference id type value => exact hm
      | addPoint id position =>
        simp only [Operation.apply, PointCloudMap.addPointStr, PointCloudMap.addPoint,
          PointTable.insert]
        intro p hp
        rcases List.mem_append.mp hp with hp | hp
        · exact hm p hp
        · rw [List.mem_singleton] at hp
          rw [hp]
          exact hops id position (List.mem_cons_self _ _)
    · intro id position h
      exact hops id position (List.mem_cons_of_mem _ h)

theorem header_lines_ignored {R : Type} (F : Real32Ops R) (gas : Nat) (hg : 20 ≤ gas)
    (m : PointCloudMap R) :
    PointCloudMap.fromString_lines F gas m
      ["# Point Cloud File".toList, "# Version 1.1.0".toList, []] = some m := by
  apply fromString_lines_ignored
  intro line hl
  simp only [List.mem_cons, List.mem_singleton, List.not_mem_nil, or_false] at hl
  rcases hl with rfl | rfl | rfl
  · exact ⟨["#".toList, "Point".toList, "Cloud".toList, "File".toList],
      split_string_mono 20 gas _ _ _ (by decide) hg, by decide⟩
  · exact ⟨["#".toList, "Version".toList, "1.1.0".toList],
      split_string_mono 20 gas _ _ _ (by decide) hg, by decide⟩
  · exact ⟨[], split_string_mono 20 gas _ _ _ (by decide) hg, by decide⟩

theorem empty_lines_ignored {R : Type} (F : Real32Ops R) (gas : Nat) (hg : 0 < gas)
    (m : PointCloudMap R) (n : Nat) :
    PointCloudMap.fromString_lines F gas m (List.replicate n []) = some m := by
  apply fromString_lines_ignored
  intro line hl
  rw [List.eq_of_mem_replicate hl]
  exact ⟨[], split_string_nil _ gas hg, by decide⟩

theorem mem_flatMap_length (ls : List string) (l : string) (h : l ∈ ls) :
    l.length < (ls.flatMap (fun l => l ++ ['\n'])).length := by
  induction ls with
  | nil => simp at h
  | cons x ls ih =>
    simp only [List.flatMap_cons, List.length_append, List.length_singleton]
    rcases List.mem_cons.mp h with rfl | h
    · omega
    · have := ih h; omega

theorem ReferenceTable.line_clean (e : ReferenceId × Reference)
    (h1 : no_whitespace e.1.value = true) (h2 : no_whitespace e.2.type = true)
    (h3 : no_whitespace e.2.value = true) :
    '\n' ∉ ReferenceTable.line e ∧ '\r' ∉ ReferenceTable.line e := by
  have a1 := no_whitespace_not_mem _ h1
  have a2 := no_whitespace_not_mem _ h2
  have a3 := no_whitespace_not_mem _ h3
  have b1 : '\n' ∉ "ref ".toList := by decide
  have b2 : '\r' ∉ "ref ".toList := by decide
  simp only [ReferenceTable.line, ReferenceId.toString, Reference.toString, List.mem_append,
    List.mem_singleton, not_or]
  exact ⟨⟨⟨⟨b1, a1.2.1⟩, by decide⟩, ⟨a2.2.1, by decide⟩, a3.2.1⟩,
    ⟨⟨⟨b2, a1.2.2⟩, by decide⟩, ⟨a2.2.2, by decide⟩, a3.2.2⟩⟩

theorem Point3D.toString_clean {R : Type} (F : Real32Ops R) (p : Point3D R)
    (h1 : no_whitespace p.reference.value = true)
    (h2 : ∀ x ∈ p.position.coordinates, no_whitespace (F.to_string x) = true) :
    '\n' ∉ p.toString F ∧ '\r' ∉ p.toString F := by
  have a1 := no_whitespace_not_mem _ h1
  have a2 := no_whitespace_not_mem _ (h2 p.position.value0 (by simp [Vector3f.coordinates]))
  have a3 := no_whitespace_not_mem _ (h2 p.position.value1 (by simp [Vector3f.coordinates]))
  have a4 := no_whitespace_not_mem _ (h2 p.position.value2 (by simp [Vector3f.coordinates]))
  have b1 : '\n' ∉ "point ".toList := by decide
  have b2 : '\r' ∉ "point ".toList := by decide
  simp only [Point3D.toString, ReferenceId.toString, Vector3f.toString, List.mem_append,
    List.mem_singleton, not_or]
  exact ⟨⟨⟨⟨b1, a1.2.1⟩, by decide⟩, ⟨⟨⟨a2.2.1, by decide⟩, a3.2.1⟩, by decide⟩, a4.2.1⟩,
    ⟨⟨⟨b2, a1.2.2⟩, by decide⟩, ⟨⟨⟨a2.2.2, by decide⟩, a3.2.2⟩, by decide⟩, a4.2.2⟩⟩

theorem mem_lines {R : Type} (F : Real32Ops R) (m : PointCloudMap R) (l : string)
    (h : l ∈ m.lines F) :
    l = "# Point Cloud File".toList ∨ l = "# Version 1.1.0".toList ∨ l = [] ∨
      l ∈ m.references.values.map ReferenceTable.line ∨
      l ∈ m.points.points.map (fun p => p.toString F) := by
  simp only [PointCloudMap.lines, List.mem_append, List.mem_cons, List.mem_singleton,
    List.not_mem_nil, or_false] at h
  tauto

theorem decode_encode {R : Type} (F : Real32Ops R) (m : PointCloudMap R) (gas : Nat)
    (hs : m.references.values.Pairwise (fun a b => a.1.value < b.1.value))
    (hr : ∀ e ∈ m.references.values, no_whitespace e.1.value = true ∧
      no_whitespace e.2.type = true ∧ no_whitespace e.2.value = true)
    (hp : ∀ p ∈ m.points.points, no_whitespace p.reference.value = true ∧
      ∀ x ∈ p.position.coordinates, no_whitespace (F.to_string x) = true)
    (hg : (m.toString F).length + 2 ≤ gas) :
    ∃ m1, PointCloudMap.fromString F gas PointCloudMap.empty (m.toString F) = some (true, m1) ∧
      ((∀ e ∈ m.references.values, e.2.value ≠ []) → m1.references = m.references) ∧
      ((∀ p ∈ m.points.points, F.to_string p.position.value2 ≠ []) →
        m1.points.points
          = m.points.points.map (fun p => ⟨p.reference, p.position.reread F⟩)) := by
  have hclean : ∀ l ∈ m.lines F, '\n' ∉ l ∧ '\r' ∉ l := by
    intro l hl
    rcases mem_lines F m l hl with rfl | rfl | rfl | h | h
    · decide
    · decide
    · simp
    · obtain ⟨e, he, rfl⟩ := List.mem_map.mp h
      exact ReferenceTable.line_clean e (hr e he).1 (hr e he).2.1 (hr e he).2.2
    · obtain ⟨p, hp1, rfl⟩ := List.mem_map.mp h
      exact Point3D.toString_clean F p (hp p hp1).1 (hp p hp1).2
  rw [toString_eq_lines] at hg ⊢
  have hlen : ∀ l ∈ m.lines F, l.length < gas := by
    intro l hl
    have := mem_flatMap_length _ l hl
    omega
  have hhead : 20 ≤ gas := by
    have := mem_flatMap_length (m.lines F) "# Point Cloud File".toList
      (by simp [PointCloudMap.lines])
    have e : "# Point Cloud File".toList.length = 18 := by decide
    omega
  unfold PointCloudMap.fromString
  rw [split_lines_terminated gas (m.lines F) hclean (by omega)]
  simp only []
  obtain ⟨ma, hma, hmap⟩ := fromString_lines_entries_points F gas m.references.values
    PointCloudMap.empty (fun e he => hlen _ (by
      simp only [PointCloudMap.lines, List.mem_append, List.mem_map]
      exact Or.inl (Or.inl (Or.inl (Or.inr ⟨e, he, rfl⟩)))))
  have hptlen : ∀ p ∈ m.points.points, (p.toString F).length < gas := fun p hp1 => hlen _ (by
    simp only [PointCloudMap.lines, List.mem_append, List.mem_map]
    exact Or.inl (Or.inr ⟨p, hp1, rfl⟩))
  obtain ⟨mb, hmb, hmbr⟩ := fromString_lines_of_points_references F gas m.points.points ma
    hptlen
  have e2 : ∀ m0 : PointCloudMap R,
      PointCloudMap.fromString_lines F gas m0 [[], []] = some m0 :=
    fun m0 => empty_lines_ignored F gas (by omega) m0 2
  have e1 : ∀ m0 : PointCloudMap R,
      PointCloudMap.fromString_lines F gas m0 [[]] = some m0 :=
    fun m0 => empty_lines_ignored F gas (by omega) m0 1
  have hrun : PointCloudMap.fromString_lines F gas PointCloudMap.empty (m.lines F) = some mb := by
    unfold PointCloudMap.lines
    rw [fromString_lines_append, fromString_lines_append, fromString_lines_append,
      fromString_lines_append, header_lines_ignored F gas hhead]
    simp only [Option.some_bind, hma, hmb, e1, e2]
  rw [hrun]
  refine ⟨mb, rfl, fun hv => ?_, fun hv => ?_⟩
  · have hex := fromString_lines_entries F gas m.references.values PointCloudMap.empty
      (fun e he => ⟨(hr e he).1, (hr e he).2.1, (hr e he).2.2, hv e he, hlen _ (by
        simp only [PointCloudMap.lines, List.mem_append, List.mem_map]
        exact Or.inl (Or.inl (Or.inl (Or.inr ⟨e, he, rfl⟩))))⟩)
    rw [hma] at hex
    have hma2 := Option.some.inj hex
    rw [hmbr, hma2]
    simp only [PointCloudMap.empty, ReferenceTable.empty]
    rw [insert_fold_sorted [] m.references.values (by simpa using hs)]
    simp
  · have hex := fromString_lines_of_points F gas m.points.points ma
      (fun p hp1 => ⟨(hp p hp1).1, (hp p hp1).2, hv p hp1, hptlen p hp1⟩)
    rw [hmb] at hex
    have hmb2 := Option.some.inj hex
    rw [hmb2, hmap]
    simp [PointCloudMap.empty, PointTable.empty]

/-! ## The round trip -/

theorem build_encodable {R : Type} (F : Real32Ops R) (ops : List (Operation R))
    (hw : ∀ op ∈ ops, op.no_whitespace = true) (hF : ∀ op ∈ ops, op.rendered F = true) :
    (PointCloudMap.build ops).references.values.Pairwise (fun a b => a.1.value < b.1.value) ∧
    (∀ e ∈ (PointCloudMap.build ops).references.values, no_whitespace e.1.value = true ∧
      no_whitespace e.2.type = true ∧ no_whitespace e.2.value = true) ∧
    (∀ p ∈ (PointCloudMap.build ops).points.points, no_whitespace p.reference.value = true ∧
      ∀ x ∈ p.position.coordinates, no_whitespace (F.to_string x) = true) := by
  refine ⟨?_, ?_, ?_⟩
  · exact foldl_apply_sorted ops PointCloudMap.empty (by
      simp [PointCloudMap.empty, ReferenceTable.empty])
  · refine foldl_apply_entries (fun e => no_whitespace e.1.value = true ∧
      no_whitespace e.2.type = true ∧ no_whitespace e.2.value = true) ops PointCloudMap.empty
      ?_ ?_
    · simp [PointCloudMap.empty, ReferenceTable.empty]
    · intro id type value h
      have := hw _ h
      simpa [Operation.no_whitespace, and_assoc] using this
  · refine foldl_apply_points (fun p => no_whitespace p.reference.value = true ∧
      ∀ x ∈ p.position.coordinates, no_whitespace (F.to_string x) = true) ops
      PointCloudMap.empty ?_ ?_
    · simp [PointCloudMap.empty, PointTable.empty]
    · intro id position h
      have h1 := hw _ h
      have h2 := hF _ h
      simp only [Operation.no_whitespace, Operation.rendered, List.all_eq_true] at h1 h2
      exact ⟨h1, h2⟩

theorem build_rendered_present {R : Type} (F : Real32Ops R) (ops : List (Operation R))
    (hFp : ∀ op ∈ ops, op.rendered_present F = true) :
    ∀ p ∈ (PointCloudMap.build ops).points.points, F.to_string p.position.value2 ≠ [] := by
  refine foldl_apply_points (fun p => F.to_string p.position.value2 ≠ []) ops
    PointCloudMap.empty ?_ ?_
  · simp [PointCloudMap.empty, PointTable.empty]
  · intro id position h
    have h2 := hFp _ h
    simp only [Operation.rendered_present, List.all_eq_true] at h2
    have := h2 position.value2 (by simp [Vector3f.coordinates])
    intro hc
    simp [hc] at this

/-- C1, as the code has it. Round trip of references: for every map `m` built from an empty
map by `addReference`/`addPoint` calls whose ids, types and values contain no whitespace
character, and in which no stored reference has the empty string as its value (the library
rendering the coordinates without whitespace), `fromString(m.toString())` on a fresh empty
map returns true and yields a reference table with exactly the entries of `m`'s table. -/
theorem roundtrip_references {R : Type} (F : Real32Ops R) (ops : List (Operation R))
    (gas : Nat) (hw : ∀ op ∈ ops, op.no_whitespace = true)
    (hF : ∀ op ∈ ops, op.rendered F = true)
    (hv : ∀ e ∈ (PointCloudMap.build ops).references.values, e.2.value ≠ [])
    (hg : ((PointCloudMap.build ops).toString F).length + 2 ≤ gas) :
    ∃ m1, PointCloudMap.fromString F gas PointCloudMap.empty
        ((PointCloudMap.build ops).toString F) = some (true, m1) ∧
      m1.references.getReferenceList = (PointCloudMap.build ops).references.getReferenceList := by
  obtain ⟨h1, h2, h3⟩ := build_encodable F ops hw hF
  obtain ⟨m1, hm, hr, _⟩ := decode_encode F (PointCloudMap.build ops) gas h1 h2 h3 hg
  exact ⟨m1, hm, by rw [hr hv]⟩

/-- C2. Round trip of points: for every map `m` built from an empty map by
`addReference`/`addPoint` calls whose ids, types and values contain no whitespace character
(the library rendering each coordinate as a non-empty string without whitespace),
`fromString(m.toString())` on a fresh empty map returns true and yields a point table of the
same length, whose `i`-th point has the id of `m`'s `i`-th point and, whenever reading back
the rendering of each of its coordinates gives the coordinate again (as it does for
integer-valued ones), the same position. -/
theorem roundtrip_points {R : Type} (F : Real32Ops R) (ops : List (Operation R))
    (gas : Nat) (hw : ∀ op ∈ ops, op.no_whitespace = true)
    (hF : ∀ op ∈ ops, op.rendered F = true)
    (hFp : ∀ op ∈ ops, op.rendered_present F = true)
    (hg : ((PointCloudMap.build ops).toString F).length + 2 ≤ gas) :
    ∃ m1, PointCloudMap.fromString F gas PointCloudMap.empty
        ((PointCloudMap.build ops).toString F) = some (true, m1) ∧
      m1.points.points.length = (PointCloudMap.build ops).points.points.length ∧
      ∀ i (h1 : i < m1.points.points.length)
        (h2 : i < (PointCloudMap.build ops).points.points.length),
        (m1.points.points[i]).reference
          = ((PointCloudMap.build ops).points.points[i]).reference ∧
        ((∀ x ∈ ((PointCloudMap.build ops).points.points[i]).position.coordinates,
            F.reread x = x) →
          (m1.points.points[i]).position
            = ((PointCloudMap.build ops).points.points[i]).position) := by
  obtain ⟨h1, h2, h3⟩ := build_encodable F ops hw hF
  obtain ⟨m1, hm, _, hp⟩ := decode_encode F (PointCloudMap.build ops) gas h1 h2 h3 hg
  have hpts := hp (build_rendered_present F ops hFp)
  refine ⟨m1, hm, by rw [hpts, List.length_map], ?_⟩
  intro i hi1 hi2
  have e : m1.points.points[i]
      = ⟨((PointCloudMap.build ops).points.points[i]).reference,
          ((PointCloudMap.build ops).points.points[i]).position.reread F⟩ := by
    simp only [hpts, List.getElem_map]
  rw [e]
  refine ⟨rfl, fun hx => ?_⟩
  simp only [Vector3f.reread]
  rw [hx _ (by simp [Vector3f.coordinates]), hx _ (by simp [Vector3f.coordinates]),
    hx _ (by simp [Vector3f.coordinates])]

set_option maxRecDepth 8000

/-- C1, at a concrete map: the references b -> (t, v), a -> ("", w) and two points. -/
theorem roundtrip_references_witness :
    ∃ m1, PointCloudMap.fromString Real32Ops.integers 200 PointCloudMap.empty
        ((PointCloudMap.build
          [Operation.addReference "b".toList "t".toList "v".toList,
           Operation.addReference "a".toList [] "w".toList,
           Operation.addPoint "a".toList ⟨1, 2, 3⟩,
           Operation.addPoint [] ⟨-4, 5, 6⟩]).toString Real32Ops.integers) = some (true, m1) ∧
      m1.references.getReferenceList = (PointCloudMap.build
          [Operation.addReference "b".toList "t".toList "v".toList,
           Operation.addReference "a".toList [] "w".toList,
           Operation.addPoint "a".toList ⟨1, 2, 3⟩,
           Operation.addPoint [] ⟨-4, 5, 6⟩]).references.getReferenceList :=
  roundtrip_references Real32Ops.integers _ 200 (by decide) (by decide) (by decide) (by decide)

/-- C1 as stated fails on an empty value: after `addReference("a", "t", "")` on an empty map
(no whitespace in id, type or value) the table holds a -> (t, ""), the encoding has the line
"ref a t " whose last token is lost, and decoding it into a fresh map leaves the reference
table empty. -/
theorem roundtrip_loses_empty_value :
    (∀ op ∈ [(Operation.addReference "a".toList "t".toList [] : Operation Int)],
      op.no_whitespace = true) ∧
    (PointCloudMap.build
      [(Operation.addReference "a".toList "t".toList [] : Operation Int)]).references.getReferenceList
      = [(⟨"a".toList⟩, ⟨"t".toList, []⟩)] ∧
    (PointCloudMap.build
      [(Operation.addReference "a".toList "t".toList [] : Operation Int)]).toString
        Real32Ops.integers
      = "# Point Cloud File\n# Version 1.1.0\n\nref a t \n\n\n\n".toList ∧
    PointCloudMap.fromString Real32Ops.integers 50 PointCloudMap.empty
      ((PointCloudMap.build
        [(Operation.addReference "a".toList "t".toList [] : Operation Int)]).toString
          Real32Ops.integers)
      = some (true, PointCloudMap.empty) := by
  refine ⟨by decide, by decide, by decide, by decide⟩

/-- C2, at a concrete map: one reference and the points ("a", {1,2,3}) and ("", {-4,5,6}). -/
theorem roundtrip_points_witness :
    ∃ m1, PointCloudMap.fromString Real32Ops.integers 200 PointCloudMap.empty
        ((PointCloudMap.build
          [Operation.addReference "b".toList "t".toList [],
           Operation.addPoint "a".toList ⟨1, 2, 3⟩,
           Operation.addPoint [] ⟨-4, 5, 6⟩]).toString Real32Ops.integers) = some (true, m1) ∧
      m1.points.points.length = (PointCloudMap.build
          [Operation.addReference "b".toList "t".toList [],
           Operation.addPoint "a".toList ⟨1, 2, 3⟩,
           Operation.addPoint [] ⟨-4, 5, 6⟩]).points.points.length ∧
      ∀ i (h1 : i < m1.points.points.length)
        (h2 : i < (PointCloudMap.build
          [Operation.addReference "b".toList "t".toList [],
           Operation.addPoint "a".toList ⟨1, 2, 3⟩,
           Operation.addPoint [] ⟨-4, 5, 6⟩]).points.points.length),
        (m1.points.points[i]).reference
          = ((PointCloudMap.build
          [Operation.addReference "b".toList "t".toList [],
           Operation.addPoint "a".toList ⟨1, 2, 3⟩,
           Operation.addPoint [] ⟨-4, 5, 6⟩]).points.points[i]).reference ∧
        ((∀ x ∈ ((PointCloudMap.build
          [Operation.addReference "b".toList "t".toList [],
           Operation.addPoint "a".toList ⟨1, 2, 3⟩,
           Operation.addPoint [] ⟨-4, 5, 6⟩]).points.points[i]).position.coordinates,
            Real32Ops.integers.reread x = x) →
          (m1.points.points[i]).position
            = ((PointCloudMap.build
          [Operation.addReference "b".toList "t".toList [],
           Operation.addPoint "a".toList ⟨1, 2, 3⟩,
           Operation.addPoint [] ⟨-4, 5, 6⟩]).points.points[i]).position) :=
  roundtrip_points Real32Ops.integers _ 200 (by decide) (by decide) (by decide) (by decide)

/-! ## Adding points -/

/-- C16. `addPoint` appends and touches nothing else: for every map with `n` points, every id
(a key of the reference table or not) and every position, `addPoint(id, position)` returns
true, leaves the reference table unchanged, leaves the points at the indices below `n`
unchanged, and makes the table `n + 1` long with the point `(id, position)` at index `n`, also
when an equal point is already present; the overload taking the id as a string does the
same. -/
theorem addPoint_appends {R : Type} (m : PointCloudMap R) (id : ReferenceId)
    (position : Vector3f R) :
    (m.addPoint id position).1 = true ∧
    (m.addPoint id position).2.references = m.references ∧
    (m.addPoint id position).2.points.points = m.points.points ++ [⟨id, position⟩] ∧
    (m.addPoint id position).2.points.points.length = m.points.points.length + 1 ∧
    (∀ i, i < m.points.points.length →
      (m.addPoint id position).2.getPoint i = m.getPoint i) ∧
    (m.addPoint id position).2.getPoint m.points.points.length = some ⟨id, position⟩ ∧
    m.addPointStr id.value position = m.addPoint id position := by
  refine ⟨rfl, rfl, rfl, ?_, ?_, ?_, rfl⟩
  · simp [PointCloudMap.addPoint, PointTable.insert]
  · intro i hi
    simp [PointCloudMap.addPoint, PointTable.insert, PointCloudMap.getPoint,
      PointTable.getPoint, hi, Nat.lt_succ_of_lt hi, List.getElem_append_left]
  · simp [PointCloudMap.addPoint, PointTable.insert, PointCloudMap.getPoint,
      PointTable.getPoint]

/-! ## Decoding a point line -/

theorem fromString_single_line {R : Type} (F : Real32Ops R) (m : PointCloudMap R) (gas : Nat)
    (line : string) (hg : 0 < gas) (hn : '\n' ∉ line) (hne : line ≠ []) :
    PointCloudMap.fromString F gas m line
      = (PointCloudMap.fromString_line F gas m line).map (fun m1 => (true, m1)) := by
  unfold PointCloudMap.fromString
  rw [split_lines_single gas hg line hn hne]
  simp only [PointCloudMap.fromString_lines]
  cases PointCloudMap.fromString_line F gas m line <;> rfl

theorem fromString_example_eval {R : Type} (F : Real32Ops R) :
    PointCloudMap.fromString F 70 PointCloudMap.empty
      "ref terrain material grass\npoint terrain 1 2 3\npoint terrain 4 5 6".toList
      = some (true, ⟨⟨[(⟨"terrain".toList⟩, ⟨"material".toList, "grass".toList⟩)]⟩,
          ⟨[⟨⟨"terrain".toList⟩,
              ⟨F.atof "1".toList, F.atof "2".toList, F.atof "3".toList⟩⟩,
            ⟨⟨"terrain".toList⟩,
              ⟨F.atof "4".toList, F.atof "5".toList, F.atof "6".toList⟩⟩]⟩⟩) := by
  have hl : split_lines 70
      "ref terrain material grass\npoint terrain 1 2 3\npoint terrain 4 5 6".toList
      = some ["ref terrain material grass".toList, "point terrain 1 2 3".toList,
          "point terrain 4 5 6".toList] := by decide
  have h1 : split_string 70 "ref terrain material grass".toList [' ']
      = some ["ref".toList, "terrain".toList, "material".toList, "grass".toList] := by decide
  have h2 : split_string 70 "point terrain 1 2 3".toList [' ']
      = some ["point".toList, "terrain".toList, "1".toList, "2".toList, "3".toList] := by
    decide
  have h3 : split_string 70 "point terrain 4 5 6".toList [' ']
      = some ["point".toList, "terrain".toList, "4".toList, "5".toList, "6".toList] := by
    decide
  unfold PointCloudMap.fromString
  rw [hl]
  simp only [PointCloudMap.fromString_lines]
  rw [fromString_line_ref F 70 _ _ _ _ _ _ [] h1 c_str_ref]
  simp only []
  rw [fromString_line_point F 70 _ _ _ _ _ _ _ [] h2 c_str_point]
  simp only []
  rw [fromString_line_point F 70 _ _ _ _ _ _ _ [] h3 c_str_point]
  rfl

/-- C12. End-to-end example: decoding the three-line text "ref terrain material grass",
"point terrain 1 2 3", "point terrain 4 5 6" into an empty map returns true and yields exactly
one reference (terrain -> type "material", value "grass") and exactly two points, both with
id "terrain", at {1,2,3} (index 0) and {4,5,6} (index 1) in that order, the numbers being what
the library's `atof` reads from "1" to "6"; and `getPoint({4,5,6})` on the result returns the
second point ({4,5,6} being equal to itself and {1,2,3} different from it). -/
theorem fromString_example {R : Type} (F : Real32Ops R) (x1 x2 x3 x4 x5 x6 : R)
    (h1 : F.atof "1".toList = x1) (h2 : F.atof "2".toList = x2) (h3 : F.atof "3".toList = x3)
    (h4 : F.atof "4".toList = x4) (h5 : F.atof "5".toList = x5) (h6 : F.atof "6".toList = x6)
    (heq : Vector3f.eq F ⟨x4, x5, x6⟩ ⟨x4, x5, x6⟩ = true)
    (hne : Vector3f.eq F ⟨x1, x2, x3⟩ ⟨x4, x5, x6⟩ = false) (gas : Nat) (hg : 70 ≤ gas) :
    ∃ m1, PointCloudMap.fromString F gas PointCloudMap.empty
        "ref terrain material grass\npoint terrain 1 2 3\npoint terrain 4 5 6".toList
        = some (true, m1) ∧
      m1.references.getReferenceList
        = [(⟨"terrain".toList⟩, ⟨"material".toList, "grass".toList⟩)] ∧
      m1.points.points
        = [⟨⟨"terrain".toList⟩, ⟨x1, x2, x3⟩⟩, ⟨⟨"terrain".toList⟩, ⟨x4, x5, x6⟩⟩] ∧
      m1.getPoint 0 = some ⟨⟨"terrain".toList⟩, ⟨x1, x2, x3⟩⟩ ∧
      m1.getPoint 1 = some ⟨⟨"terrain".toList⟩, ⟨x4, x5, x6⟩⟩ ∧
      m1.getPointAt F ⟨x4, x5, x6⟩ = some ⟨⟨"terrain".toList⟩, ⟨x4, x5, x6⟩⟩ := by
  have e := fromString_mono F 70 gas _ _ _ (fromString_example_eval F) hg
  rw [h1, h2, h3, h4, h5, h6] at e
  refine ⟨_, e, rfl, rfl, rfl, rfl, ?_⟩
  simp [PointCloudMap.getPointAt, PointTable.getPointAt, PointTable.find,
    PointTable.find_loop, heq, hne, PointTable.getPoint]

/-- C12, evaluated with the integer instance of the library. -/
theorem fromString_example_witness :
    ∃ m1, PointCloudMap.fromString Real32Ops.integers 70 PointCloudMap.empty
        "ref terrain material grass\npoint terrain 1 2 3\npoint terrain 4 5 6".toList
        = some (true, m1) ∧
      m1.references.getReferenceList
        = [(⟨"terrain".toList⟩, ⟨"material".toList, "grass".toList⟩)] ∧
      m1.points.points
        = [⟨⟨"terrain".toList⟩, ⟨1, 2, 3⟩⟩, ⟨⟨"terrain".toList⟩, ⟨4, 5, 6⟩⟩] ∧
      m1.getPoint 0 = some ⟨⟨"terrain".toList⟩, ⟨1, 2, 3⟩⟩ ∧
      m1.getPoint 1 = some ⟨⟨"terrain".toList⟩, ⟨4, 5, 6⟩⟩ ∧
      m1.getPointAt Real32Ops.integers ⟨4, 5, 6⟩ = some ⟨⟨"terrain".toList⟩, ⟨4, 5, 6⟩⟩ :=
  fromString_example Real32Ops.integers 1 2 3 4 5 6 (by decide) (by decide) (by decide)
    (by decide) (by decide) (by decide) (by decide) (by decide) 70 (by decide)

/-! ## What a sequence of calls preserves -/

theorem fromString_line_cases {R : Type} (F : Real32Ops R) (gas : Nat)
    (m m1 : PointCloudMap R) (line : string)
    (h : PointCloudMap.fromString_line F gas m line = some m1) :
    m1 = m ∨ (∃ id ref, m1 = (m.addReference id ref).2) ∨
      (∃ id position, m1 = (m.addPoint id position).2) := by
  unfold PointCloudMap.fromString_line at h
  split at h
  · cases hs : split_string gas line [' '] with
    | none => simp [hs] at h
    | some tokens =>
      simp only [hs] at h
      split at h
      · split at h
        · split at h
          · right; left
            exact ⟨_, _, (Option.some.inj h).symm⟩
          · left; exact (Option.some.inj h).symm
        · split at h
          · split at h
            · right; right
              exact ⟨_, _, (Option.some.inj h).symm⟩
            · left; exact (Option.some.inj h).symm
          · left; exact (Option.some.inj h).symm
      · left; exact (Option.some.inj h).symm
  · left; exact (Option.some.inj h).symm

theorem fromString_lines_invariant {R : Type} (F : Real32Ops R) (gas : Nat)
    (I : PointCloudMap R → Prop)
    (hr : ∀ m id ref, I m → I (m.addReference id ref).2)
    (hp : ∀ m id position, I m → I (m.addPoint id position).2)
    (lines : List string) (m m1 : PointCloudMap R) (hm : I m)
    (h : PointCloudMap.fromString_lines F gas m lines = some m1) : I m1 := by
  induction lines generalizing m with
  | nil =>
    simp only [PointCloudMap.fromString_lines] at h
    rw [← Option.some.inj h]; exact hm
  | cons line rest ih =>
    simp only [PointCloudMap.fromString_lines] at h
    cases hl : PointCloudMap.fromString_line F gas m line with
    | none => simp [hl] at h
    | some m2 =>
      simp only [hl] at h
      apply ih m2 _ h
      rcases fromString_line_cases F gas m m2 line hl with rfl | ⟨id, ref, rfl⟩ | ⟨id, p, rfl⟩
      · exact hm
      · exact hr m id ref hm
      · exact hp m id p hm

theorem fromString_invariant {R : Type} (F : Real32Ops R) (gas : Nat)
    (I : PointCloudMap R → Prop)
    (hr : ∀ m id ref, I m → I (m.addReference id ref).2)
    (hp : ∀ m id position, I m → I (m.addPoint id position).2)
    (text : string) (m : PointCloudMap R) (r : Bool × PointCloudMap R) (hm : I m)
    (h : PointCloudMap.fromString F gas m text = some r) : I r.2 := by
  unfold PointCloudMap.fromString at h
  cases hl : split_lines gas text with
  | none => simp [hl] at h
  | some lines =>
    simp only [hl] at h
    cases hf : PointCloudMap.fromString_lines F gas m lines with
    | none => simp [hf] at h
    | some m1 =>
      simp only [hf] at h
      rw [← Option.some.inj h]
      exact fromString_lines_invariant F gas I hr hp lines m m1 hm hf

theorem run_invariant {R : Type} (F : Real32Ops R) (gas : Nat)
    (I : PointCloudMap R → Prop)
    (hr : ∀ m id ref, I m → I (m.addReference id ref).2)
    (hp : ∀ m id position, I m → I (m.addPoint id position).2)
    (calls : List (Call R)) (m m1 : PointCloudMap R) (hm : I m)
    (h : PointCloudMap.run F gas m calls = some m1) : I m1 := by
  induction calls generalizing m with
  | nil =>
    simp only [PointCloudMap.run] at h
    rw [← Option.some.inj h]; exact hm
  | cons call rest ih =>
    simp only [PointCloudMap.run] at h
    cases hc : call.apply F gas m with
    | none => simp [hc] at h
    | some m2 =>
      simp only [hc] at h
      apply ih m2 _ h
      cases call with
      | addReference id type value =>
        simp only [Call.apply] at hc
        rw [← Option.some.inj hc]
        exact hr m _ _ hm
      | addPoint id position =>
        simp only [Call.apply] at hc
        rw [← Option.some.inj hc]
        exact hp m _ _ hm
      | fromString text =>
        simp only [Call.apply] at hc
        cases hf : PointCloudMap.fromString F gas m text with
        | none => simp [hf] at hc
        | some r =>
          simp only [hf, Option.map_some'] at hc
          rw [← Option.some.inj hc]
          exact fromString_invariant F gas I hr hp text m r hm hf

theorem run_total {R : Type} (F : Real32Ops R) (calls : List (Call R)) (m : PointCloudMap R) :
    ∃ gas m1, ∀ gas1, gas ≤ gas1 → PointCloudMap.run F gas1 m calls = some m1 := by
  induction calls generalizing m with
  | nil => exact ⟨0, m, fun _ _ => rfl⟩
  | cons call rest ih =>
    cases call with
    | addReference id type value =>
      obtain ⟨g, m1, h⟩ := ih (m.addReferenceStr id type value).2
      exact ⟨g, m1, fun g1 hg => by simpa [PointCloudMap.run, Call.apply] using h g1 hg⟩
    | addPoint id position =>
      obtain ⟨g, m1, h⟩ := ih (m.addPointStr id position).2
      exact ⟨g, m1, fun g1 hg => by simpa [PointCloudMap.run, Call.apply] using h g1 hg⟩
    | fromString text =>
      obtain ⟨m2, h2⟩ := fromString_some F (text.length + 2) m text (le_refl _)
      obtain ⟨g, m1, h⟩ := ih m2
      refine ⟨max g (text.length + 2), m1, fun g1 hg => ?_⟩
      have e := fromString_mono F _ g1 m text _ h2 (le_trans (le_max_right _ _) hg)
      simp only [PointCloudMap.run, Call.apply, e, Option.map_some']
      exact h g1 (le_trans (le_max_left _ _) hg)

theorem addReference_ordered {R : Type} (m : PointCloudMap R) (id : ReferenceId)
    (ref : Reference) (h : m.references.ordered) : (m.addReference id ref).2.references.ordered := by
  simp only [PointCloudMap.addReference, ReferenceTable.ordered] at *
  rcases insert_cases m.references id ref with h1 | ⟨h1, h2⟩
  · rw [h1]; exact h
  · rw [h2]; exact map_assign_pairwise _ _ _ h h1

theorem addReference_keeps {R : Type} (m : PointCloudMap R) (id : ReferenceId)
    (ref : Reference) (e : ReferenceId × Reference) (h : e ∈ m.references.values) :
    e ∈ (m.addReference id ref).2.references.values := by
  simp only [PointCloudMap.addReference]
  rcases insert_cases m.references id ref with h1 | ⟨h1, h2⟩
  · rw [h1]; exact h
  · rw [h2]; exact (mem_map_assign _ _ _ h1 e).mpr (Or.inr h)

theorem ordered_unique (t : ReferenceTable) (h : t.ordered) (id : ReferenceId)
    (r r1 : Reference) (h1 : (id, r) ∈ t.values) (h2 : (id, r1) ∈ t.values) : r1 = r := by
  by_contra hne
  have hp : t.values.Pairwise (fun a b => a.1.value ≠ b.1.value) :=
    List.Pairwise.imp (fun hab => ne_of_lt hab) h
  have := List.Pairwise.forall (fun a b hab => Ne.symm hab) hp h1 h2
    (fun hc => hne (Prod.mk.inj hc).2.symm)
  exact this rfl

theorem run_ordered {R : Type} (F : Real32Ops R) (gas : Nat) (calls : List (Call R))
    (m m1 : PointCloudMap R) (hs : m.references.ordered)
    (h : PointCloudMap.run F gas m calls = some m1) : m1.references.ordered :=
  run_invariant F gas (fun m => m.references.ordered)
    (fun m id ref hm => addReference_ordered m id ref hm) (fun _ _ _ hm => hm) calls m m1 hs h

theorem run_keeps {R : Type} (F : Real32Ops R) (gas : Nat) (calls : List (Call R))
    (m m1 : PointCloudMap R) (e : ReferenceId × Reference) (he : e ∈ m.references.values)
    (h : PointCloudMap.run F gas m calls = some m1) : e ∈ m1.references.values :=
  run_invariant F gas (fun m => e ∈ m.references.values)
    (fun m id ref hm => addReference_keeps m id ref e hm) (fun _ _ _ hm => hm) calls m m1 he h

theorem two_ref_lines_eval {R : Type} (F : Real32Ops R) :
    PointCloudMap.fromString F 30 (PointCloudMap.empty : PointCloudMap R)
      "ref a t1 v1\nref a t2 v2".toList
      = some (true, ⟨⟨[(⟨"a".toList⟩, ⟨"t1".toList, "v1".toList⟩)]⟩, ⟨[]⟩⟩) := by
  have hl : split_lines 30 "ref a t1 v1\nref a t2 v2".toList
      = some ["ref a t1 v1".toList, "ref a t2 v2".toList] := by decide
  have h1 : split_string 30 "ref a t1 v1".toList [' ']
      = some ["ref".toList, "a".toList, "t1".toList, "v1".toList] := by decide
  have h2 : split_string 30 "ref a t2 v2".toList [' ']
      = some ["ref".toList, "a".toList, "t2".toList, "v2".toList] := by decide
  unfold PointCloudMap.fromString
  rw [hl]
  simp only [PointCloudMap.fromString_lines]
  rw [fromString_line_ref F 30 _ _ _ _ _ _ [] h1 c_str_ref]
  simp only []
  rw [fromString_line_ref F 30 _ _ _ _ _ _ [] h2 c_str_ref]
  rfl

/-- C14. First-write-wins invariant: for every map (its table ordered, as every `std::map`
is) and every finite sequence of `addReference`, `addPoint` and `fromString` calls, an id
mapped to a reference `r` before the sequence is mapped to `r`, and to nothing else, after
it, and the table is still ordered; the sequence always returns, given enough loop
iterations; and decoding the two lines "ref a t1 v1", "ref a t2 v2" into an empty map keeps
the type and value of the first line. -/
theorem first_write_wins {R : Type} (F : Real32Ops R) (gas : Nat) (m m1 : PointCloudMap R)
    (calls : List (Call R)) (hs : m.references.ordered)
    (h : PointCloudMap.run F gas m calls = some m1) (id : ReferenceId) (r : Reference)
    (hm : (id, r) ∈ m.references.getReferenceList) :
    (id, r) ∈ m1.references.getReferenceList ∧
    (∀ r1, (id, r1) ∈ m1.references.getReferenceList → r1 = r) ∧
    m1.references.ordered ∧
    (∃ gas0 m2, ∀ gas1, gas0 ≤ gas1 → PointCloudMap.run F gas1 m calls = some m2) ∧
    PointCloudMap.run F 30 (PointCloudMap.empty : PointCloudMap R)
      [Call.fromString "ref a t1 v1\nref a t2 v2".toList]
      = some ⟨⟨[(⟨"a".toList⟩, ⟨"t1".toList, "v1".toList⟩)]⟩, ⟨[]⟩⟩ := by
  have hk := run_keeps F gas calls m m1 (id, r) hm h
  have ho := run_ordered F gas calls m m1 hs h
  refine ⟨hk, fun r1 h1 => ordered_unique m1.references ho id r r1 hk h1, ho,
    run_total F calls m, ?_⟩
  simp only [PointCloudMap.run, Call.apply, two_ref_lines_eval F, Option.map_some']

/-- C14, at a concrete sequence: after `addReference("a","t1","v1")`, a second
`addReference` for "a", a `fromString` of a "ref a" line and an `addPoint` leave "a" mapped to
("t1","v1"). -/
theorem first_write_wins_witness :
    (⟨"a".toList⟩, ⟨"t1".toList, "v1".toList⟩) ∈
      (⟨⟨[(⟨"a".toList⟩, ⟨"t1".toList, "v1".toList⟩), (⟨"b".toList⟩, ⟨"t".toList, "v".toList⟩)]⟩,
        ⟨[⟨⟨"x".toList⟩, ⟨1, 2, 3⟩⟩]⟩⟩ : PointCloudMap Int).references.getReferenceList :=
  (first_write_wins Real32Ops.integers 30
    ⟨⟨[(⟨"a".toList⟩, ⟨"t1".toList, "v1".toList⟩)]⟩, ⟨[]⟩⟩
    ⟨⟨[(⟨"a".toList⟩, ⟨"t1".toList, "v1".toList⟩), (⟨"b".toList⟩, ⟨"t".toList, "v".toList⟩)]⟩,
      ⟨[⟨⟨"x".toList⟩, ⟨1, 2, 3⟩⟩]⟩⟩
    [Call.addReference "a".toList "t2".toList "v2".toList,
     Call.fromString "ref a t3 v3\nref b t v".toList,
     Call.addPoint "x".toList ⟨1, 2, 3⟩]
    (by simp [ReferenceTable.ordered]) (by decide) ⟨"a".toList⟩ ⟨"t1".toList, "v1".toList⟩
    (by decide)).1

/-! ## The layout of the encoding -/

/-- C13. Encode layout: for every map, `toString` is exactly the header
"# Point Cloud File\n# Version 1.1.0\n", followed by "\n", then one line
"ref <id> <type> <value>\n" per reference in the table's iteration order, then "\n", then
"\n", then one line "point <id> <x> <y> <z>\n" per point in insertion order (the coordinates
as the library renders them), then "\n"; the iteration order is the ascending id order for
every map reached from an empty map by `addReference`, `addPoint` and `fromString` calls; for
the empty map the encoding is the header followed by four line feeds. -/
theorem toString_layout {R : Type} (F : Real32Ops R) (m : PointCloudMap R) :
    m.toString F
      = "# Point Cloud File\n# Version 1.1.0\n".toList ++ ['\n'] ++
        m.references.getReferenceList.flatMap (fun e =>
          "ref ".toList ++ e.1.value ++ [' '] ++ e.2.type ++ [' '] ++ e.2.value ++ ['\n']) ++
        ['\n'] ++ ['\n'] ++
        m.points.points.flatMap (fun p =>
          "point ".toList ++ p.reference.value ++ [' '] ++ F.to_string p.position.value0 ++
            [' '] ++ F.to_string p.position.value1 ++ [' '] ++
            F.to_string p.position.value2 ++ ['\n']) ++
        ['\n'] ∧
    (∀ gas calls, PointCloudMap.run F gas PointCloudMap.empty calls = some m →
      m.references.getReferenceList.Pairwise (fun a b => a.1.value < b.1.value)) ∧
    (PointCloudMap.empty : PointCloudMap R).toString F
      = "# Point Cloud File\n# Version 1.1.0\n".toList ++ ['\n', '\n', '\n', '\n'] := by
  refine ⟨?_, ?_, ?_⟩
  · simp only [PointCloudMap.toString, ReferenceTable.toString, PointTable.toString,
      foldl_append_eq, POINT_CLOUD_MAP_LIBRARY_VERSION, ReferenceTable.getReferenceList]
    have e1 : ∀ l : List (ReferenceId × Reference),
        l.flatMap ReferenceTable.toString_entry
          = l.flatMap (fun e =>
            "ref ".toList ++ e.1.value ++ [' '] ++ e.2.type ++ [' '] ++ e.2.value ++ ['\n']) := by
      intro l
      congr 1
      funext e
      simp [ReferenceTable.toString_entry, ReferenceId.toString, Reference.toString]
    have e2 : ∀ l : List (Point3D R),
        l.flatMap (fun point => Point3D.toString F point ++ ['\n'])
          = l.flatMap (fun p =>
            "point ".toList ++ p.reference.value ++ [' '] ++ F.to_string p.position.value0 ++
              [' '] ++ F.to_string p.position.value1 ++ [' '] ++
              F.to_string p.position.value2 ++ ['\n']) := by
      intro l
      congr 1
      funext p
      simp [Point3D.toString, ReferenceId.toString, Vector3f.toString]
    rw [e1, e2]
    have e3 : "# Point Cloud File\n# Version 1.1.0\n".toList
        = "# Point Cloud File\n".toList ++ ("# Version ".toList ++ "1.1.0".toList ++ ['\n']) := by
      decide
    rw [e3]
    simp only [List.append_assoc]
  · intro gas calls h
    exact run_ordered F gas calls PointCloudMap.empty m
      (by simp [ReferenceTable.ordered, PointCloudMap.empty, ReferenceTable.empty]) h
  · rfl

/-! ## The snapshot of the reference table -/

theorem insert_fold_mem (ins : List (ReferenceId × Reference)) (t0 : ReferenceTable)
    (e : ReferenceId × Reference) :
    e ∈ (ins.foldl (fun (t : ReferenceTable) x => (t.insert x.1 x.2).2) t0).values ↔
      e ∈ t0.values ∨
        (e.1 ∉ t0.values.map Prod.fst ∧ ins.find? (fun x => decide (x.1 = e.1)) = some e) := by
  induction ins generalizing t0 with
  | nil => simp
  | cons x ins ih =>
    simp only [List.foldl_cons]
    rw [ih]
    by_cases hx : x.1 ∈ t0.values.map Prod.fst
    · rw [insert_present t0 x.1 x.2 hx]
      simp only []
      constructor
      · rintro (h | ⟨h1, h2⟩)
        · exact Or.inl h
        · right
          refine ⟨h1, ?_⟩
          have hne : x.1 ≠ e.1 := fun hc => h1 (hc ▸ hx)
          simp [List.find?_cons, hne, h2]
      · rintro (h | ⟨h1, h2⟩)
        · exact Or.inl h
        · right
          refine ⟨h1, ?_⟩
          have hne : x.1 ≠ e.1 := fun hc => h1 (hc ▸ hx)
          simpa [List.find?_cons, hne] using h2
    · rw [insert_absent t0 x.1 x.2 hx]
      simp only []
      have hmem : ∀ y, y ∈ map_assign t0.values x.1 x.2 ↔ y = x ∨ y ∈ t0.values :=
        fun y => mem_map_assign t0.values x.1 x.2 hx y
      have hkeys : ∀ k, k ∈ (map_assign t0.values x.1 x.2).map Prod.fst ↔
          k = x.1 ∨ k ∈ t0.values.map Prod.fst := by
        intro k
        simp only [List.mem_map, hmem]
        constructor
        · rintro ⟨y, hy | hy, rfl⟩
          · exact Or.inl (by rw [hy])
          · exact Or.inr ⟨y, hy, rfl⟩
        · rintro (rfl | ⟨y, hy, rfl⟩)
          · exact ⟨x, Or.inl rfl, rfl⟩
          · exact ⟨y, Or.inr hy, rfl⟩
      rw [hmem, hkeys]
      by_cases hxe : x.1 = e.1
      · simp only [List.find?_cons, hxe, decide_True, Option.some.injEq]
        constructor
        · rintro ((h | h) | ⟨h1, _⟩)
          · exact Or.inr ⟨fun hc => hx (hxe ▸ hc), h.symm⟩
          · exact Or.inl h
          · exact absurd (Or.inl trivial) h1
        · rintro (h | ⟨_, h2⟩)
          · exact Or.inl (Or.inr h)
          · exact Or.inl (Or.inl h2.symm)
      · have hne : e ≠ x := fun hc => hxe (by rw [hc])
        have hne2 : ¬ e.1 = x.1 := fun hc => hxe hc.symm
        simp only [List.find?_cons, hxe, decide_False, hne, false_or, hne2]

theorem inserted_mem (ins : List (ReferenceId × Reference)) (e : ReferenceId × Reference) :
    e ∈ (ReferenceTable.inserted ins).values ↔
      ins.find? (fun x => decide (x.1 = e.1)) = some e := by
  unfold ReferenceTable.inserted
  rw [insert_fold_mem]
  simp [ReferenceTable.empty]

theorem inserted_ordered (ins : List (ReferenceId × Reference)) :
    (ReferenceTable.inserted ins).ordered := by
  unfold ReferenceTable.inserted
  suffices h : ∀ t0 : ReferenceTable, t0.ordered →
      (ins.foldl (fun (t : ReferenceTable) x => (t.insert x.1 x.2).2) t0).ordered from
    h _ (by simp [ReferenceTable.ordered, ReferenceTable.empty])
  induction ins with
  | nil => intro t0 h; exact h
  | cons x ins ih =>
    intro t0 h
    simp only [List.foldl_cons]
    apply ih
    rcases insert_cases t0 x.1 x.2 with h1 | ⟨h1, h2⟩
    · rw [h1]; exact h
    · rw [h2]; exact map_assign_pairwise _ _ _ h h1

theorem inserted_keys (ins : List (ReferenceId × Reference)) (id : ReferenceId) :
    id ∈ (ReferenceTable.inserted ins).values.map Prod.fst ↔ id ∈ ins.map Prod.fst := by
  simp only [List.mem_map]
  constructor
  · rintro ⟨e, he, rfl⟩
    exact ⟨e, List.mem_of_find?_eq_some ((inserted_mem ins e).mp he), rfl⟩
  · rintro ⟨x, hx, rfl⟩
    cases hf : ins.find? (fun y => decide (y.1 = x.1)) with
    | none =>
      have := List.find?_eq_none.mp hf x hx
      simp at this
    | some e =>
      have he1 : e.1 = x.1 := by simpa using List.find?_some hf
      refine ⟨e, (inserted_mem ins e).mpr ?_, he1⟩
      rw [he1]; exact hf

theorem increasing_ext (l1 l2 : List string) (h1 : l1.Pairwise (· < ·))
    (h2 : l2.Pairwise (· < ·)) (h : ∀ a, a ∈ l1 ↔ a ∈ l2) : l1 = l2 := by
  have n1 : l1.Nodup := List.Pairwise.imp (fun hab => ne_of_lt hab) h1
  have n2 : l2.Nodup := List.Pairwise.imp (fun hab => ne_of_lt hab) h2
  exact List.eq_of_perm_of_sorted ((List.perm_ext_iff_of_nodup n1 n2).mpr h) h1 h2

/-- C15. Key-ordered snapshot: for every reference table reached from the empty table by
`insert` calls, `getReferenceList` returns exactly the entries of the table, with ids
strictly increasing (so one entry per id) in the lexicographic order of the characters'
codes; the ids are exactly the inserted ids, each with the reference of its first insert;
and the sequence of ids depends only on which ids were inserted, not on the order of the
calls. -/
theorem key_ordered_snapshot (inserts : List (ReferenceId × Reference)) :
    (ReferenceTable.inserted inserts).getReferenceList
      = (ReferenceTable.inserted inserts).values ∧
    (ReferenceTable.inserted inserts).getReferenceList.Pairwise
      (fun a b => a.1.lt b.1 = true) ∧
    (∀ id, id ∈ (ReferenceTable.inserted inserts).getReferenceList.map Prod.fst ↔
      id ∈ inserts.map Prod.fst) ∧
    (∀ e, e ∈ (ReferenceTable.inserted inserts).getReferenceList ↔
      inserts.find? (fun x => decide (x.1 = e.1)) = some e) ∧
    (∀ inserts2 : List (ReferenceId × Reference),
      (∀ id, id ∈ inserts2.map Prod.fst ↔ id ∈ inserts.map Prod.fst) →
      (ReferenceTable.inserted inserts2).getReferenceList.map Prod.fst
        = (ReferenceTable.inserted inserts).getReferenceList.map Prod.fst) ∧
    (∀ (a b : ReferenceId), a.lt b = true ↔ a.value < b.value) ∧
    (∀ (c d : Char) (s u : string),
      ([] < c :: s) ∧ ¬ (s < []) ∧
      (c :: s < d :: u ↔ c.toNat < d.toNat ∨ (c = d ∧ s < u))) := by
  refine ⟨rfl, ?_, inserted_keys inserts, inserted_mem inserts, ?_, ?_, ?_⟩
  · exact List.Pairwise.imp (fun hab => by simpa [ReferenceId.lt] using hab)
      (inserted_ordered inserts)
  · intro inserts2 h
    have inj : Function.Injective ReferenceId.value := by
      intro a b hab
      cases a; cases b; simpa using hab
    apply (List.map_injective_iff.mpr inj)
    simp only [ReferenceTable.getReferenceList, List.map_map]
    apply increasing_ext
    · exact (List.pairwise_map).mpr (inserted_ordered inserts2)
    · exact (List.pairwise_map).mpr (inserted_ordered inserts)
    · intro s
      have h1 := inserted_keys inserts2 ⟨s⟩
      have h2 := inserted_keys inserts ⟨s⟩
      have h3 := h ⟨s⟩
      have conv : ∀ l : List (ReferenceId × Reference),
          s ∈ l.map (ReferenceId.value ∘ Prod.fst) ↔ (⟨s⟩ : ReferenceId) ∈ l.map Prod.fst := by
        intro l
        simp only [List.mem_map, Function.comp]
        constructor
        · rintro ⟨e, he, rfl⟩; exact ⟨e, he, rfl⟩
        · rintro ⟨e, he, hs⟩; exact ⟨e, he, by rw [hs]⟩
      rw [conv, conv, h1, h2, h3]
  · intro a b
    simp [ReferenceId.lt]
  · intro c d s u
    refine ⟨List.Lex.nil, ?_, ?_⟩
    · intro h; cases h
    constructor
    · intro h
      cases h with
      | cons h => exact Or.inr ⟨rfl, h⟩
      | rel h => exact Or.inl h
    · rintro (h | ⟨rfl, h⟩)
      · exact List.Lex.rel h
      · exact List.Lex.cons h

/-! ## Equality of reference ids -/

theorem c_str_of_no_nul (s : string) (h : NUL ∉ s) : c_str s = s := by
  unfold c_str
  rw [List.takeWhile_eq_self_iff]
  intro c hc
  have : c ≠ NUL := fun hn => h (hn ▸ hc)
  simpa using this

theorem ReferenceId.eq_iff_c_str (a b : ReferenceId) :
    a.eq b = true ↔ c_str a.value = c_str b.value := by
  simp [ReferenceId.eq, strcmp_eq_zero]

theorem ReferenceId.trichotomy_of_eq_iff (a b : ReferenceId)
    (e : a.eq b = true ↔ a.value = b.value) :
    (a.lt b = true ∧ a.eq b = false ∧ b.lt a = false) ∨
      (a.lt b = false ∧ a.eq b = true ∧ b.lt a = false) ∨
      (a.lt b = false ∧ a.eq b = false ∧ b.lt a = true) := by
  have e2 : a.eq b = false ↔ a.value ≠ b.value := by
    rw [← Bool.not_eq_true, e]
  simp only [ReferenceId.lt, decide_eq_true_eq, decide_eq_false_iff_not, e, e2]
  rcases lt_trichotomy a.value b.value with h | h | h
  · exact Or.inl ⟨h, ne_of_lt h, not_lt.mpr (le_of_lt h)⟩
  · exact Or.inr (Or.inl ⟨by rw [h]; exact lt_irrefl _, h, by rw [h]; exact lt_irrefl _⟩)
  · exact Or.inr (Or.inr ⟨not_lt.mpr (le_of_lt h), (ne_of_lt h).symm, h⟩)

/-- C18, as the code has it. For all ReferenceIds `a` and `b`, whatever characters they
hold, `a == b` holds if and only if the two values are the same string up to the first NUL
character of each; `a == b` holds whenever the two values are the same string; and when
neither value contains a NUL character, `a == b` holds if and only if the values are the same
string, and exactly one of `a < b`, `a == b`, `b < a` holds. -/
theorem ReferenceId.eq_exact (a b : ReferenceId) :
    (a.eq b = true ↔ c_str a.value = c_str b.value) ∧
    (a.value = b.value → a.eq b = true) ∧
    (NUL ∉ a.value → NUL ∉ b.value →
      (a.eq b = true ↔ a.value = b.value) ∧
      ((a.lt b = true ∧ a.eq b = false ∧ b.lt a = false) ∨
        (a.lt b = false ∧ a.eq b = true ∧ b.lt a = false) ∨
        (a.lt b = false ∧ a.eq b = false ∧ b.lt a = true))) := by
  refine ⟨ReferenceId.eq_iff_c_str a b, fun h => ?_, fun ha hb => ?_⟩
  · rw [ReferenceId.eq_iff_c_str, h]
  · have e : a.eq b = true ↔ a.value = b.value := by
      rw [ReferenceId.eq_iff_c_str, c_str_of_no_nul _ ha, c_str_of_no_nul _ hb]
    exact ⟨e, ReferenceId.trichotomy_of_eq_iff a b e⟩

/-- C18, evaluated: the ids "a" NUL "b" and "a" NUL "c" are equal under `==` because both
read "a" up to the first NUL; the NUL-free ids "a" and "b" are not equal under `==`, and of
`a < b`, `a == b`, `b < a` exactly the first holds. -/
theorem ReferenceId.eq_exact_witness :
    (ReferenceId.eq ⟨"a\x00b".toList⟩ ⟨"a\x00c".toList⟩ = true ↔
      c_str "a\x00b".toList = c_str "a\x00c".toList) ∧
    c_str "a\x00b".toList = "a".toList ∧ c_str "a\x00c".toList = "a".toList ∧
    ((ReferenceId.eq ⟨"a".toList⟩ ⟨"b".toList⟩ = true ↔ "a".toList = "b".toList) ∧
      ((ReferenceId.lt ⟨"a".toList⟩ ⟨"b".toList⟩ = true ∧
          ReferenceId.eq ⟨"a".toList⟩ ⟨"b".toList⟩ = false ∧
          ReferenceId.lt ⟨"b".toList⟩ ⟨"a".toList⟩ = false) ∨
        (ReferenceId.lt ⟨"a".toList⟩ ⟨"b".toList⟩ = false ∧
          ReferenceId.eq ⟨"a".toList⟩ ⟨"b".toList⟩ = true ∧
          ReferenceId.lt ⟨"b".toList⟩ ⟨"a".toList⟩ = false) ∨
        (ReferenceId.lt ⟨"a".toList⟩ ⟨"b".toList⟩ = false ∧
          ReferenceId.eq ⟨"a".toList⟩ ⟨"b".toList⟩ = false ∧
          ReferenceId.lt ⟨"b".toList⟩ ⟨"a".toList⟩ = true))) :=
  ⟨(ReferenceId.eq_exact ⟨"a\x00b".toList⟩ ⟨"a\x00c".toList⟩).1, by decide, by decide,
    (ReferenceId.eq_exact ⟨"a".toList⟩ ⟨"b".toList⟩).2.2 (by decide) (by decide)⟩

/-- C18 as stated fails on ids with a NUL character: the ids "a" NUL "b" and "a" NUL "c" are
different strings, `==` holds between them, and so does `<`. -/
theorem ReferenceId.eq_stops_at_nul :
    ("a\x00b".toList ≠ "a\x00c".toList) ∧
    ReferenceId.eq ⟨"a\x00b".toList⟩ ⟨"a\x00c".toList⟩ = true ∧
    ReferenceId.lt ⟨"a\x00b".toList⟩ ⟨"a\x00c".toList⟩ = true := by
  refine ⟨by decide, by decide, by decide⟩

/-! ## Split then join -/

theorem findFrom_some_starts (t u : string) (k : Nat) (h : findFrom t u 0 = some k) :
    t.isPrefixOf (u.drop k) = true := by
  induction u generalizing k with
  | nil =>
    simp only [findFrom] at h
    split at h
    · rename_i ht
      have : t = [] := by simpa using ht
      subst this
      simp
    · simp at h
  | cons c rest ih =>
    simp only [findFrom] at h
    split at h
    · rename_i hp
      simp at h
      subst h
      simpa using hp
    · rw [findFrom_shift] at h
      cases hr : findFrom t rest 0 with
      | none => simp [hr] at h
      | some j =>
        simp [hr] at h
        subst h
        simpa using ih j hr

theorem findFrom_some_eq (t u : string) (k : Nat) (h : findFrom t u 0 = some k) :
    u = u.take k ++ (t ++ u.drop (k + t.length)) := by
  have hp := List.isPrefixOf_iff_prefix.mp (findFrom_some_starts t u k h)
  obtain ⟨w, hw⟩ := hp
  have e : u.drop (k + t.length) = w := by
    have e1 : u.drop (k + t.length) = (u.drop k).drop t.length := by
      simp [List.drop_drop, Nat.add_comm]
    rw [e1, ← hw]
    simp
  rw [e, hw, List.take_append_drop]

theorem intercalate_cons_cons (d x y : string) (l : List string) :
    List.intercalate d (x :: y :: l) = x ++ (d ++ List.intercalate d (y :: l)) := by
  simp [List.intercalate, List.intersperse]

theorem intercalate_cons_of_ne_nil (d x : string) (l : List string) (h : l ≠ []) :
    List.intercalate d (x :: l) = x ++ (d ++ List.intercalate d l) := by
  cases l with
  | nil => exact absurd rfl h
  | cons y l => exact intercalate_cons_cons d x y l

theorem intercalate_split_ref_go (d : string) (n : Nat) (u : string) :
    List.intercalate d (split_ref_go d n u) = u := by
  induction n generalizing u with
  | zero => simp [split_ref_go, List.intercalate, List.intersperse]
  | succ n ih =>
    simp only [split_ref_go]
    cases hr : findFrom d u 0 with
    | none => simp [List.intercalate, List.intersperse]
    | some k =>
      simp only []
      rw [intercalate_cons_of_ne_nil _ _ _ (split_ref_go_ne_nil _ _ _), ih]
      exact (findFrom_some_eq d u k hr).symm

theorem intercalate_append_empty (d : string) (l : List string) (h : l ≠ []) :
    List.intercalate d (l ++ [[]]) = List.intercalate d l ++ d := by
  induction l with
  | nil => exact absurd rfl h
  | cons x l ih =>
    cases l with
    | nil => simp [List.intercalate, List.intersperse]
    | cons y l =>
      have e : (x :: y :: l) ++ [[]] = x :: ((y :: l) ++ [[]]) := rfl
      rw [e, intercalate_cons_of_ne_nil _ _ _ (by simp), ih (by simp),
        intercalate_cons_cons]
      simp [List.append_assoc]

theorem intercalate_drop_last_empty (d : string) (l : List string) :
    List.intercalate d (drop_last_empty l) = List.intercalate d l ∨
      List.intercalate d (drop_last_empty l) ++ d = List.intercalate d l := by
  unfold drop_last_empty
  split
  · rename_i hl
    have e : l = l.dropLast ++ [[]] := (List.dropLast_append_getLast? _ hl).symm
    by_cases hd : l.dropLast = []
    · left
      rw [hd] at e ⊢
      rw [e]
      simp [List.intercalate, List.intersperse]
    · right
      rw [← intercalate_append_empty d _ hd, ← e]
  · left; rfl

/-- C20. Split then join: for every text `s` and every non-empty delimiter `d`,
`split_string(s, d)` returns (with any bound above `s.length` on its loop) one sequence, and
joining that sequence with `d` between consecutive elements yields either `s` itself or `s`
with one trailing occurrence of `d` removed. -/
theorem split_then_join (s d : string) (hd : d ≠ []) :
    ∃ l, (∀ gas, s.length < gas → split_string gas s d = some l) ∧
      (List.intercalate d l = s ∨ List.intercalate d l ++ d = s) := by
  refine ⟨drop_last_empty (split_ref s d), fun gas hg => split_string_spec s d hd gas hg, ?_⟩
  have := intercalate_drop_last_empty d (split_ref s d)
  rw [split_ref, intercalate_split_ref_go] at this
  exact this

/-- C20, evaluated: "a b  c " split at the space and joined again is "a b  c". -/
theorem split_then_join_witness :
    ∃ l, (∀ gas, "a b  c ".toList.length < gas →
        split_string gas "a b  c ".toList " ".toList = some l) ∧
      (List.intercalate " ".toList l = "a b  c ".toList ∨
        List.intercalate " ".toList l ++ " ".toList = "a b  c ".toList) :=
  split_then_join "a b  c ".toList " ".toList (by decide)

/-! ## Decoding one text after another -/

theorem first_occurrence (c : Char) (u : string) :
    c ∉ u ∨ ∃ a b, u = a ++ c :: b ∧ c ∉ a := by
  induction u with
  | nil => left; simp
  | cons x u ih =>
    by_cases hx : x = c
    · right; exact ⟨[], u, by simp [hx], by simp⟩
    · rcases ih with h | ⟨a, b, h1, h2⟩
      · left
        simp only [List.mem_cons, not_or]
        exact ⟨fun hc => hx hc.symm, h⟩
      · right
        refine ⟨x :: a, b, by simp [h1], ?_⟩
        simp only [List.mem_cons, not_or]
        exact ⟨fun hc => hx hc.symm, h2⟩

theorem split_ref_go_first (c : Char) (a b : string) (h : c ∉ a) (n : Nat) :
    split_ref_go [c] (n + 1) (a ++ c :: b) = a :: split_ref_go [c] n b := by
  simp only [split_ref_go, findFrom_char c a b h]
  simp

theorem split_ref_go_none (c : Char) (u : string) (h : c ∉ u) (n : Nat) :
    split_ref_go [c] n u = [u] := by
  cases n with
  | zero => rfl
  | succ n =>
    simp only [split_ref_go, findFrom_none_of_not_mem [c] u c (by simp) h 0]

theorem split_ref_go_fuel (c : Char) (n m : Nat) (u : string) (hn : u.length ≤ n)
    (hm : u.length ≤ m) : split_ref_go [c] n u = split_ref_go [c] m u := by
  induction n generalizing m u with
  | zero =>
    have hu : u = [] := List.length_eq_zero.mp (by omega)
    subst hu
    rw [split_ref_go_none c [] (by simp) 0, split_ref_go_none c [] (by simp) m]
  | succ n ih =>
    rcases first_occurrence c u with h | ⟨a, b, rfl, h⟩
    · rw [split_ref_go_none c u h, split_ref_go_none c u h]
    · cases m with
      | zero => simp at hm
      | succ m =>
        rw [split_ref_go_first c a b h, split_ref_go_first c a b h]
        simp only [List.length_append, List.length_cons] at hn hm
        rw [ih m b (by omega) (by omega)]

theorem split_ref_append (c : Char) (t1 t2 : string) :
    split_ref (t1 ++ c :: t2) [c] = split_ref t1 [c] ++ split_ref t2 [c] := by
  unfold split_ref
  generalize hn : t1.length = n
  induction n using Nat.strong_induction_on generalizing t1 with
  | _ n ih =>
    rcases first_occurrence c t1 with h | ⟨a, b, rfl, h⟩
    · rw [split_ref_go_none c t1 h]
      have e : (t1 ++ c :: t2).length = (t1.length + t2.length) + 1 := by simp; omega
      rw [e, split_ref_go_first c t1 t2 h,
        split_ref_go_fuel c (t1.length + t2.length) t2.length t2 (by omega) (le_refl _)]
      rfl
    · have e : (a ++ c :: b ++ c :: t2).length = (a.length + (b ++ c :: t2).length) + 1 := by
        simp; omega
      have e0 : a ++ c :: b ++ c :: t2 = a ++ c :: (b ++ c :: t2) := by simp
      have e1 : (a ++ c :: b).length = (a.length + b.length) + 1 := by simp; omega
      rw [e0] at e ⊢
      rw [e, split_ref_go_first c a _ h,
        split_ref_go_fuel c (a.length + (b ++ c :: t2).length) (b ++ c :: t2).length _
          (by omega) (le_refl _),
        ih b.length (by rw [← hn, e1]; omega) b rfl]
      subst hn
      rw [e1, split_ref_go_first c a b h,
        split_ref_go_fuel c (a.length + b.length) b.length b (by omega) (le_refl _)]
      rfl

theorem drop_last_empty_append (A B : List string) (h : B ≠ []) :
    drop_last_empty (A ++ B) = A ++ drop_last_empty B := by
  induction A with
  | nil => rfl
  | cons x A ih =>
    have e : (x :: A) ++ B = x :: (A ++ B) := rfl
    rw [e, drop_last_empty_cons x (A ++ B) (by simp [h]), ih]
    rfl

theorem drop_last_empty_cases (l : List string) :
    drop_last_empty l = l ∨ l = drop_last_empty l ++ [[]] := by
  unfold drop_last_empty
  split
  · rename_i hl
    right
    exact (List.dropLast_append_getLast? _ hl).symm
  · left; rfl

theorem findFrom_char_none (c : Char) (u : string) (i : Nat) (h : findFrom [c] u i = none) :
    c ∉ u := by
  rcases first_occurrence c u with h1 | ⟨a, b, rfl, h1⟩
  · exact h1
  · rw [findFrom_shift, findFrom_char c a b h1] at h
    simp at h

theorem split_suffix_no_delimiter (c : Char) (g : Nat) (u : string) (l : List string)
    (h : split_suffix [c] g u = some l) : ∀ x ∈ l, c ∉ x := by
  induction g generalizing u l with
  | zero => simp [split_suffix] at h
  | succ g ih =>
    rcases first_occurrence c u with h1 | ⟨a, b, rfl, h1⟩
    · simp only [split_suffix, findFrom_none_of_not_mem [c] u c (by simp) h1 0] at h
      split at h
      · simp at h; subst h; simpa using h1
      · simp at h; subst h; simp
    · rw [split_suffix_first c a b h1 g] at h
      cases hs : split_suffix [c] g b with
      | none => simp [hs] at h
      | some l1 =>
        simp [hs] at h
        subst h
        intro x hx
        rcases List.mem_cons.mp hx with rfl | hx
        · exact h1
        · exact ih b l1 hs x hx

theorem split_lines_eq_suffix (gas : Nat) (hg : 0 < gas) (t : string) (h : '\r' ∉ t) :
    split_lines gas t = split_suffix ['\n'] gas t := by
  unfold split_lines
  rw [replaceAll_of_find_none gas t ['\r', '\n'] ['\n'] hg
    (findFrom_none_of_not_mem _ _ '\r' (by simp) h 0)]
  simp only [split_string_eq]
  cases hs : split_suffix ['\n'] gas t with
  | none => rfl
  | some l =>
    simp only []
    exact split_lines_strip_id gas hg l (split_suffix_no_delimiter '\n' gas t l hs)

theorem fromString_lines_trailing_empty {R : Type} (F : Real32Ops R) (gas : Nat)
    (hg : 0 < gas) (m : PointCloudMap R) (l : List string) :
    PointCloudMap.fromString_lines F gas m (l ++ [[]])
      = PointCloudMap.fromString_lines F gas m l := by
  rw [fromString_lines_append]
  cases PointCloudMap.fromString_lines F gas m l with
  | none => rfl
  | some m1 =>
    simp only [Option.some_bind]
    exact empty_lines_ignored F gas hg m1 1

theorem fromString_eq_lines {R : Type} (F : Real32Ops R) (gas : Nat) (m : PointCloudMap R)
    (t : string) (h : '\r' ∉ t) (hg : t.length < gas) :
    PointCloudMap.fromString F gas m t
      = (PointCloudMap.fromString_lines F gas m (split_ref t ['\n'])).map
          (fun m1 => (true, m1)) := by
  unfold PointCloudMap.fromString
  rw [split_lines_eq_suffix gas (by omega) t h,
    split_suffix_spec ['\n'] (by simp) t.length t gas (le_refl _) hg]
  simp only []
  have e : PointCloudMap.fromString_lines F gas m (drop_last_empty (split_ref_go ['\n'] t.length t))
      = PointCloudMap.fromString_lines F gas m (split_ref t ['\n']) := by
    unfold split_ref
    rcases drop_last_empty_cases (split_ref_go ['\n'] t.length t) with h1 | h1
    · rw [h1]
    · conv => rhs; rw [h1]
      rw [fromString_lines_trailing_empty F gas (by omega)]
  rw [e]
  cases PointCloudMap.fromString_lines F gas m (split_ref t ['\n']) <;> rfl

theorem fromString_append {R : Type} (F : Real32Ops R) (gas : Nat) (m : PointCloudMap R)
    (t1 t2 : string) (h1 : '\r' ∉ t1) (h2 : '\r' ∉ t2)
    (hg : (t1 ++ ['\n'] ++ t2).length < gas) :
    PointCloudMap.fromString F gas m (t1 ++ ['\n'] ++ t2)
      = (PointCloudMap.fromString F gas m t1).bind
          (fun r => PointCloudMap.fromString F gas r.2 t2) := by
  have hl : (t1 ++ ['\n'] ++ t2).length = t1.length + 1 + t2.length := by
    simp; omega
  have hr : '\r' ∉ t1 ++ ['\n'] ++ t2 := by
    simp only [List.mem_append, List.mem_singleton, not_or]
    exact ⟨⟨h1, by decide⟩, h2⟩
  rw [fromString_eq_lines F gas m _ hr hg, fromString_eq_lines F gas m t1 h1 (by omega)]
  have e : t1 ++ ['\n'] ++ t2 = t1 ++ '\n' :: t2 := by simp
  rw [e, split_ref_append, fromString_lines_append]
  cases PointCloudMap.fromString_lines F gas m (split_ref t1 ['\n']) with
  | none => rfl
  | some ma =>
    simp only [Option.some_bind, Option.map_some']
    rw [fromString_eq_lines F gas ma t2 h2 (by omega)]

theorem fromString_keeps {R : Type} (F : Real32Ops R) (gas : Nat) (m : PointCloudMap R)
    (text : string) (r : Bool × PointCloudMap R)
    (h : PointCloudMap.fromString F gas m text = some r) :
    (∀ e ∈ m.references.values, e ∈ r.2.references.values) ∧
      m.points.points <+: r.2.points.points := by
  constructor
  · intro e he
    exact fromString_invariant F gas (fun x => e ∈ x.references.values)
      (fun x id ref hx => addReference_keeps x id ref e hx) (fun _ _ _ hx => hx) text m r he h
  · exact fromString_invariant F gas (fun x => m.points.points <+: x.points.points)
      (fun _ _ _ hx => hx)
      (fun x id p hx => hx.trans (by
        simp only [PointCloudMap.addPoint, PointTable.insert]
        exact List.prefix_append _ _))
      text m r (List.prefix_refl _) h

/-- C19. Decoding accumulates and composes: `fromString` keeps every reference entry the map
had and keeps its points as the first points of the result; and for every map and all texts
`t1` and `t2` without carriage return, decoding `t1` and then `t2` returns true twice and
leaves the same map (reference table and point sequence) as decoding the single text
`t1 + "\n" + t2`, given enough loop iterations in each call. -/
theorem fromString_composes {R : Type} (F : Real32Ops R) (m : PointCloudMap R)
    (t1 t2 : string) (h1 : '\r' ∉ t1) (h2 : '\r' ∉ t2) :
    (∀ gas text r, PointCloudMap.fromString F gas m text = some r →
      (∀ e ∈ m.references.getReferenceList, e ∈ r.2.references.getReferenceList) ∧
        m.points.points <+: r.2.points.points) ∧
    ∃ ma mb,
      (∀ gas, t1.length + 2 ≤ gas →
        PointCloudMap.fromString F gas m t1 = some (true, ma)) ∧
      (∀ gas, t2.length + 2 ≤ gas →
        PointCloudMap.fromString F gas ma t2 = some (true, mb)) ∧
      (∀ gas, (t1 ++ ['\n'] ++ t2).length + 2 ≤ gas →
        PointCloudMap.fromString F gas m (t1 ++ ['\n'] ++ t2) = some (true, mb)) := by
  refine ⟨fun gas text r h => fromString_keeps F gas m text r h, ?_⟩
  obtain ⟨ma, ha⟩ := fromString_some F (t1.length + 2) m t1 (le_refl _)
  obtain ⟨mb, hb⟩ := fromString_some F (t2.length + 2) ma t2 (le_refl _)
  have hl : (t1 ++ ['\n'] ++ t2).length = t1.length + 1 + t2.length := by
    simp; omega
  refine ⟨ma, mb, fun gas hg => fromString_mono F _ gas m t1 _ ha hg,
    fun gas hg => fromString_mono F _ gas ma t2 _ hb hg, fun gas hg => ?_⟩
  rw [fromString_append F gas m t1 t2 h1 h2 (by omega),
    fromString_mono F _ gas m t1 _ ha (by omega)]
  simp only [Option.some_bind]
  exact fromString_mono F _ gas ma t2 _ hb (by omega)

/-- C19, evaluated: decoding "ref a t v" and then "point a 1 2 3" against decoding
"ref a t v\npoint a 1 2 3". -/
theorem fromString_composes_witness :
    ∃ ma mb,
      (∀ gas, "ref a t v".toList.length + 2 ≤ gas →
        PointCloudMap.fromString Real32Ops.integers gas PointCloudMap.empty "ref a t v".toList
          = some (true, ma)) ∧
      (∀ gas, "point a 1 2 3".toList.length + 2 ≤ gas →
        PointCloudMap.fromString Real32Ops.integers gas ma "point a 1 2 3".toList
          = some (true, mb)) ∧
      (∀ gas, ("ref a t v".toList ++ ['\n'] ++ "point a 1 2 3".toList).length + 2 ≤ gas →
        PointCloudMap.fromString Real32Ops.integers gas PointCloudMap.empty
          ("ref a t v".toList ++ ['\n'] ++ "point a 1 2 3".toList) = some (true, mb)) :=
  (fromString_composes Real32Ops.integers PointCloudMap.empty "ref a t v".toList
    "point a 1 2 3".toList (by decide) (by decide)).2

/-! ## The quote-aware replacement -/

/-- C17 fails after a replacement that shortens the text: in "xab'ab" the second occurrence
of "ab" (index 4) is preceded by one quote character, so replacing "ab" by "c" outside quotes
gives "xc'ab"; `replaceAll`, which has already moved its quote position past the first
occurrence when the text shrinks, does not count that quote and returns "xc'c" whenever it
returns. -/
theorem replaceAll_replaces_inside_quotes :
    find "xab'ab".toList "ab".toList 0 = some 1 ∧
    find "xab'ab".toList "ab".toList 3 = some 4 ∧
    ("xab'ab".toList.take 4).countP (fun c => quotes.contains c) = 1 ∧
    replace_outside_quotes "xab'ab".toList "ab".toList "c".toList = "xc'ab".toList ∧
    replaceAll 8 "xab'ab".toList "ab".toList "c".toList = some "xc'c".toList ∧
    (∀ gas out, replaceAll gas "xab'ab".toList "ab".toList "c".toList = some out →
      out = "xc'c".toList) := by
  refine ⟨by decide, by decide, by decide, by decide, by decide, ?_⟩
  intro gas out h
  have h8 : replaceAll 8 "xab'ab".toList "ab".toList "c".toList = some "xc'c".toList := by
    decide
  rcases Nat.le_total gas 8 with hg | hg
  · have := replaceAll_mono _ _ _ _ _ _ h hg
    rw [h8] at this
    exact (Option.some.inj this).symm
  · have := replaceAll_mono _ _ _ _ _ _ h8 hg
    rw [h] at this
    exact Option.some.inj this

/-! ## Reference and point lines by their space-split tokens -/

theorem drop_last_empty_keeps (A : List string) (x : string) (rest : List string)
    (h : x ≠ [] ∨ rest ≠ []) :
    ∃ rest1, drop_last_empty (A ++ x :: rest) = A ++ x :: rest1 := by
  by_cases hr : rest = []
  · subst hr
    have hx : x ≠ [] := by
      rcases h with h | h
      · exact h
      · exact absurd rfl h
    refine ⟨[], ?_⟩
    rw [drop_last_empty_append A [x] (by simp)]
    simp [drop_last_empty, hx]
  · refine ⟨drop_last_empty rest, ?_⟩
    rw [drop_last_empty_append A (x :: rest) (by simp), drop_last_empty_cons x rest hr]

theorem line_ignored_from {R : Type} (F : Real32Ops R) (m : PointCloudMap R) (gas0 gas : Nat)
    (line : string) (tokens : List string) (hn : '\n' ∉ line) (hne : line ≠ [])
    (ht : split_string gas0 line [' '] = some tokens) (hi : ignored line tokens = true)
    (hg : gas0 ≤ gas) :
    PointCloudMap.fromString F gas m line = some (true, m) := by
  have ht1 := split_string_mono gas0 gas _ _ _ ht hg
  rw [fromString_single_line F m gas line (split_string_gas_pos _ _ _ _ ht1) hn hne,
    fromString_line_ignored F gas m line tokens ht1 hi]
  rfl

/-- C10, as the code has it. Reference-line decoding: for every map and every line without
line feed whose space-split tokens are "ref", t1, t2, t3 followed by any number of further
tokens, where t3 is not the empty string or at least one further token follows,
`fromString(line)` returns true and leaves the map exactly as `addReference(t1, t2, t3)`
leaves it; the tokens after the fourth have no effect. -/
theorem fromString_ref_line {R : Type} (F : Real32Ops R) (m : PointCloudMap R) (gas : Nat)
    (line t1 t2 t3 : string) (rest : List string) (hn : '\n' ∉ line)
    (hg : line.length < gas)
    (ht : split_ref line [' '] = "ref".toList :: t1 :: t2 :: t3 :: rest)
    (h3 : t3 ≠ [] ∨ rest ≠ []) :
    PointCloudMap.fromString F gas m line = some (true, (m.addReferenceStr t1 t2 t3).2) := by
  obtain ⟨rest1, hr⟩ := drop_last_empty_keeps ["ref".toList, t1, t2] t3 rest h3
  have hs := split_string_spec line [' '] (by simp) gas hg
  rw [ht] at hs
  have e : "ref".toList :: t1 :: t2 :: t3 :: rest = ["ref".toList, t1, t2] ++ t3 :: rest := rfl
  rw [e, hr] at hs
  exact fromString_ref_line_tokens F m gas line t1 t2 t3 rest1 hn hs

/-- C10, evaluated: "ref a t v more words" stores the value "v" under "a". -/
theorem fromString_ref_line_witness :
    PointCloudMap.fromString Real32Ops.integers 22 PointCloudMap.empty
      "ref a t v more words".toList
      = some (true, ⟨⟨[(⟨"a".toList⟩, ⟨"t".toList, "v".toList⟩)]⟩, ⟨[]⟩⟩) :=
  (fromString_ref_line Real32Ops.integers PointCloudMap.empty 22 "ref a t v more words".toList
    "a".toList "t".toList "v".toList ["more".toList, "words".toList] (by decide) (by decide)
    (by decide) (by decide)).trans (by decide)

/-- C10 as stated fails on an empty fourth token: the line "ref a t " has no line break and
its space-split tokens are "ref", "a", "t", ""; `fromString` counts three tokens and leaves
every map as it is, with any library and any sufficient number of loop iterations, while
`addReference("a", "t", "")` on an empty map stores a -> (t, ""). -/
theorem fromString_ref_line_empty_value :
    '\n' ∉ "ref a t ".toList ∧
    split_ref "ref a t ".toList [' '] = ["ref".toList, "a".toList, "t".toList, []] ∧
    split_string 10 "ref a t ".toList [' '] = some ["ref".toList, "a".toList, "t".toList] ∧
    (∀ (R : Type) (F : Real32Ops R) (m : PointCloudMap R) (gas : Nat), 10 ≤ gas →
      PointCloudMap.fromString F gas m "ref a t ".toList = some (true, m)) ∧
    (∀ (R : Type),
      ((PointCloudMap.empty : PointCloudMap R).addReferenceStr "a".toList "t".toList
        []).2.references.getReferenceList = [(⟨"a".toList⟩, ⟨"t".toList, []⟩)] ∧
      (PointCloudMap.empty : PointCloudMap R).references.getReferenceList = []) := by
  refine ⟨by decide, by decide, by decide, ?_, fun R => ⟨rfl, rfl⟩⟩
  intro R F m gas hg
  exact line_ignored_from F m 10 gas _ ["ref".toList, "a".toList, "t".toList] (by decide)
    (by decide) (by decide) (by decide) hg

end pcm
